import Mathlib

/-!
Verification of the hello-video-codec core: a shallow embedding of the
bitstream reader/writer (src/bitstream.rs), the entropy coder, predictor and
Golomb-parameter selection (src/codec.rs), and the plane/frame framing
(src/frame.rs), together with proofs of the specified properties.

Modelling conventions:
* Machine integers are modelled as Nat (for unsigned values) or Int (for i32
  values), with explicit `% 2 ^ w` at the points where the Rust code wraps.
  Rust's arithmetic shift right on i32 is `Int.shiftRight`, casts between
  i32 and u32 are `toU32` and `asI32` below.
* Byte sources and sinks are `List Nat` of byte values.
* Fallible operations return `Option`; `none` models the io::Error return
  (always ErrorKind::UnexpectedEof in this codec's reader).
* The source's `while` loops run on a fuel argument chosen large enough; each
  loop decreases its measure by at least one per iteration, so the fuel
  (the measure itself, plus one where the loop exits by a failing read)
  is sufficient and behaviour coincides with the Rust loop.
-/

namespace HVC

/-- natToBits n v is the list of the low n bits of v, most significant bit first. -/
def natToBits : Nat → Nat → List Bool
  | 0, _ => []
  | n + 1, v => v.testBit n :: natToBits n v

/-- bitsToNat folds a most-significant-first bit list back into a Nat. -/
def bitsToNat (l : List Bool) : Nat :=
  l.foldl (fun acc b => 2 * acc + cond b 1 0) 0

/-- bytesToBits expands a byte list into its bit list, each byte MSB first. -/
def bytesToBits (bs : List Nat) : List Bool :=
  bs.flatMap (natToBits 8)

/-! ## Bitstream reader (src/bitstream.rs, `Bitstream`) -/

/-- State of `Bitstream<T>`: the not-yet-pulled bytes of the underlying
reader, the 128-bit staging word `next_bits` and its meaningful bit count
`next_bits_length`. -/
structure Bitstream where
  input : List Nat
  next_bits : Nat
  next_bits_length : Nat
deriving DecidableEq

/-- Bitstream::new. -/
def Bitstream.new (input : List Nat) : Bitstream := ⟨input, 0, 0⟩

/-- The byte-pulling loop at the top of `Bitstream::next_bits`: while fewer
than n bits are staged, shift in the next byte (u128 arithmetic, hence the
`% 2 ^ 128`); fail when the source is exhausted. -/
def fillBits (n : Nat) : List Nat → Nat → Nat → Option (List Nat × Nat × Nat)
  | [], nb, len => if len < n then none else some ([], nb, len)
  | b :: rest, nb, len =>
      if len < n then fillBits n rest ((nb <<< 8 ||| b) % 2 ^ 128) (len + 8)
      else some (b :: rest, nb, len)

/-- Bitstream::next_bits (the peek operation): pull bytes until n bits are
staged, then return the top n staged bits masked by
`0xffff_ffff_ffff_ffff >> (64 - n)`, without consuming them. -/
def Bitstream.nextBits (r : Bitstream) (n : Nat) : Option (Nat × Bitstream) :=
  match fillBits n r.input r.next_bits r.next_bits_length with
  | none => none
  | some (input, nb, len) =>
      some ((nb >>> (len - n)) &&& ((2 ^ 64 - 1) >>> (64 - n)), ⟨input, nb, len⟩)

/-- Bitstream::read_bits: next_bits followed by advancing the cursor. -/
def Bitstream.read_bits (r : Bitstream) (n : Nat) : Option (Nat × Bitstream) :=
  match r.nextBits n with
  | none => none
  | some (v, r1) => some (v, { r1 with next_bits_length := r1.next_bits_length - n })

/-! ## Bitstream writer (src/bitstream.rs, `BitstreamWriter`) -/

/-- State of `BitstreamWriter<T>`: bytes already written to the sink, plus
the staging word and its meaningful length. -/
structure BitstreamWriter where
  output : List Nat
  next_bits : Nat
  next_bits_length : Nat
deriving DecidableEq

/-- BitstreamWriter::new. -/
def BitstreamWriter.new : BitstreamWriter := ⟨[], 0, 0⟩

/-- The byte-draining loop at the bottom of `write_bits`: while at least 8
bits are staged, emit the top staged byte (`as u8` is `% 2 ^ 8`).  The fuel
is instantiated with the staged length, which bounds the iteration count. -/
def drainGo : Nat → Nat → Nat → List Nat × Nat
  | 0, _, len => ([], len)
  | fuel + 1, nb, len =>
      if 8 ≤ len then
        let p := drainGo fuel nb (len - 8)
        ((nb >>> (len - 8)) % 2 ^ 8 :: p.1, p.2)
      else ([], len)

/-- The central part of `write_bits` once `len ≤ 64`: append the bits below
the staged word (u128 arithmetic) and drain whole bytes. -/
def writeCore (w : BitstreamWriter) (bits len : Nat) : BitstreamWriter :=
  let nb := (w.next_bits <<< len ||| bits) % 2 ^ 128
  let l := w.next_bits_length + len
  let d := drainGo l nb l
  ⟨w.output ++ d.1, nb, d.2⟩

/-- The normalisation loops of `write_bits`: while len ≥ 128 write 64 zero
bits, then if len > 64 write len - 64 zero bits, then the core appends the
last 64 (or fewer) bits.  Fuel is instantiated with len, which bounds the
number of 64-bit chunks. -/
def writeBitsGo : Nat → BitstreamWriter → Nat → Nat → BitstreamWriter
  | 0, w, bits, len => writeCore w bits len
  | fuel + 1, w, bits, len =>
      if 128 ≤ len then writeBitsGo fuel (writeCore w 0 64) bits (len - 64)
      else if 64 < len then writeCore (writeCore w 0 (len - 64)) bits 64
      else writeCore w bits len

/-- BitstreamWriter::write_bits. -/
def BitstreamWriter.write_bits (w : BitstreamWriter) (bits len : Nat) : BitstreamWriter :=
  writeBitsGo len w bits len

/-- BitstreamWriter::flush: emit the staged fractional byte padded with
low zero bits, if any. -/
def BitstreamWriter.flush (w : BitstreamWriter) : BitstreamWriter :=
  if 0 < w.next_bits_length then
    ⟨w.output ++ [(w.next_bits <<< (8 - w.next_bits_length)) % 2 ^ 8], w.next_bits, 0⟩
  else w

/-! ## Entropy coder, predictor and Golomb parameter (src/codec.rs) -/

/-- Truncation of an i32 (or any integer) to its unsigned 32-bit value, the
`as u32` cast. -/
def toU32 (x : Int) : Nat := (x % (2 ^ 32 : Int)).toNat

/-- Reinterpretation of a u32 value as an i32, the `as i32` cast. -/
def asI32 (u : Nat) : Int :=
  if u % 2 ^ 32 < 2 ^ 31 then ((u % 2 ^ 32 : Nat) : Int)
  else ((u % 2 ^ 32 : Nat) : Int) - 2 ^ 32

/-- fixed_prediction (src/codec.rs lines 9-19), the median-edge predictor.
Inputs are u16 sample values; the result is an i32. -/
def fixed_prediction (a b c : Nat) : Int :=
  let min_a_b := min a b
  let max_a_b := max a b
  if max_a_b ≤ c then (min_a_b : Int)
  else if c ≤ min_a_b then (max_a_b : Int)
  else (a : Int) + (b : Int) - (c : Int)

/-- The signed-to-unsigned fold in encode_value:
`((x >> 30) ^ (2 * x)) as u32` with i32 arithmetic, so the products wrap at
2^32 and the shift is arithmetic. -/
def zigzag_fold (x : Int) : Nat :=
  toU32 (Int.shiftRight x 30) ^^^ toU32 (2 * x)

/-- encode_value (src/codec.rs lines 21-27). -/
def encode_value (k : Nat) (x : Int) (dest : BitstreamWriter) : BitstreamWriter :=
  let xu := zigzag_fold x
  let high_bits := xu >>> k
  let dest := dest.write_bits 1 (high_bits + 1)
  dest.write_bits (xu &&& (1 <<< k - 1)) k

/-- The unary-prefix loop of decode_value: read single bits until a one bit
appears, counting the zero bits.  Each successful 1-bit read removes one bit
from the reader, so the fuel below suffices. -/
def countZerosFuel : Nat → Bitstream → Option (Nat × Bitstream)
  | 0, _ => none
  | fuel + 1, r =>
      match r.read_bits 1 with
      | none => none
      | some (b, r1) =>
          if b = 0 then
            match countZerosFuel fuel r1 with
            | none => none
            | some (h, r2) => some (h + 1, r2)
          else some (0, r1)

/-- The unary-prefix loop of decode_value with its sufficient fuel: one more
than the total number of bits the reader can still produce. -/
def countZeros (r : Bitstream) : Option (Nat × Bitstream) :=
  countZerosFuel (r.next_bits_length + 8 * r.input.length + 1) r

/-- The sign-unfolding expression of decode_value:
`(x as i32 >> 1) ^ ((x << 31) as i32 >> 31)` with u32 shifts wrapping at
2^32 and the i32 xor computed on two's-complement images. -/
def unzigzag_fold (u : Nat) : Int :=
  asI32 (toU32 (Int.shiftRight (asI32 u) 1) ^^^
         toU32 (Int.shiftRight (asI32 ((u <<< 31) % 2 ^ 32)) 31))

/-- decode_value (src/codec.rs lines 29-36).  The zero-bit count is a u32 in
the source, hence the `% 2 ^ 32` before the u32 shift. -/
def decode_value (k : Nat) (source : Bitstream) : Option (Int × Bitstream) :=
  match countZeros source with
  | none => none
  | some (high_bits, source) =>
      match source.read_bits k with
      | none => none
      | some (low, source) =>
          some (unzigzag_fold ((((high_bits % 2 ^ 32) <<< k) % 2 ^ 32) ||| low % 2 ^ 32), source)

/-- The parameter search loop of `k`: while (3 << j) < activity, increment j.
The loop adds one per iteration and stops no later than j = activity, so
fuel = activity suffices. -/
def kLoop : Nat → Nat → Nat → Nat
  | 0, _, j => j
  | fuel + 1, activity, j => if 3 * 2 ^ j < activity then kLoop fuel activity (j + 1) else j

/-- k (src/codec.rs lines 38-46): the Golomb parameter from the causal
activity |d - b| + |b - c| + |c - a| (i32 arithmetic, values are u16 so
no wrapping occurs). -/
def k (a b c d : Nat) : Nat :=
  let activity_level := ((d : Int) - b).natAbs + ((b : Int) - c).natAbs + ((c : Int) - a).natAbs
  kLoop activity_level activity_level 0

/-! ## Plane codec (src/codec.rs, `impl frame::Codec for Codec`) -/

/-- Plane (src/frame.rs lines 9-15): a strided view; `data` is the backing
sample slice from the view's base offset. -/
structure Plane where
  data : List Nat
  width : Nat
  height : Nat
  sample_stride : Nat
  row_stride : Nat
deriving DecidableEq

/-- The inner (column) loop of Codec::encode: per sample, read x and the
above-right neighbor d, emit the prediction residual with parameter
k(a, b, c, d), and shift the context (c ← b, b ← d, a ← x).  The fuel is
the number of remaining columns, `width - col`. -/
def encCols (p : Plane) (row : Nat) : Nat → Nat → Nat → Nat → Nat → BitstreamWriter → BitstreamWriter
  | 0, _, _, _, _, w => w
  | fuel + 1, col, a, b, c, w =>
      let x := p.data.getD (row * p.row_stride + col * p.sample_stride) 0
      let d := if 0 < row ∧ col + 1 < p.width then
        p.data.getD ((row - 1) * p.row_stride + (col + 1) * p.sample_stride) 0 else 0
      let w := encode_value (k a b c d) ((x : Int) - fixed_prediction a b c) w
      encCols p row fuel (col + 1) x d b w

/-- The outer (row) loop of Codec::encode: each row starts with a = 0, c = 0
and the carried b; after the row, b is reassigned to the first sample of the
just-finished row. -/
def encRows (p : Plane) : Nat → Nat → Nat → BitstreamWriter → BitstreamWriter
  | _, 0, _, w => w
  | row, fuel + 1, b, w =>
      let w := encCols p row p.width 0 0 b 0 w
      encRows p (row + 1) fuel (p.data.getD (row * p.row_stride) 0) w

/-- Codec::encode (src/codec.rs lines 49-78): scan the plane behind a fresh
BitstreamWriter and flush.  Returns the bytes written to dest. -/
def Codec.encode (p : Plane) : List Nat :=
  (BitstreamWriter.flush (encRows p 0 p.height 0 BitstreamWriter.new)).output

/-- The inner (column) loop of Codec::decode, threading the mutable sample
slice: read the residual, reconstruct x = (prediction + residual) as u16,
store it, and shift the context exactly as the encoder does. -/
def decCols (width sample_stride row_stride : Nat) (row : Nat) :
    Nat → Nat → Nat → Nat → Nat → List Nat → Bitstream → Option (List Nat × Bitstream)
  | 0, _, _, _, _, data, bs => some (data, bs)
  | fuel + 1, col, a, b, c, data, bs =>
      let d := if 0 < row ∧ col + 1 < width then
        data.getD ((row - 1) * row_stride + (col + 1) * sample_stride) 0 else 0
      match decode_value (k a b c d) bs with
      | none => none
      | some (res, bs) =>
          let x := ((fixed_prediction a b c + res) % (2 ^ 16 : Int)).toNat
          decCols width sample_stride row_stride row fuel (col + 1) x d b
            (data.set (row * row_stride + col * sample_stride) x) bs

/-- The outer (row) loop of Codec::decode, with the same row-boundary
reassignment of b (read from the just-decoded data). -/
def decRows (width sample_stride row_stride : Nat) :
    Nat → Nat → Nat → List Nat → Bitstream → Option (List Nat × Bitstream)
  | _, 0, _, data, bs => some (data, bs)
  | row, fuel + 1, b, data, bs =>
      match decCols width sample_stride row_stride row width 0 0 b 0 data bs with
      | none => none
      | some (data, bs) =>
          decRows width sample_stride row_stride (row + 1) fuel
            (data.getD (row * row_stride) 0) data bs

/-- Codec::decode (src/codec.rs lines 80-109): decode a plane from a fresh
Bitstream over the source; returns the updated sample slice and the bytes
the Bitstream did not pull from the source (dropping the Bitstream loses
its staged bits but leaves unpulled bytes in the source). -/
def Codec.decode (source : List Nat) (p : Plane) : Option (Plane × List Nat) :=
  match decRows p.width p.sample_stride p.row_stride 0 p.height 0 p.data (Bitstream.new source) with
  | none => none
  | some (data, bs) => some ({ p with data := data }, bs.input)

/-! ## Frame framing (src/frame.rs, `RGB48Frame`) -/

/-- RGB48Frame (src/frame.rs lines 42-47): an owned interleaved buffer of
u16 samples. -/
structure RGB48Frame where
  data : List Nat
  width : Nat
  height : Nat
deriving DecidableEq

/-- RGB48Frame::planes (src/frame.rs lines 82-93): one strided view per
plane; the plane count is data.len() / (width * height). -/
def RGB48Frame.planes (f : RGB48Frame) : List Plane :=
  let n_planes := f.data.length / (f.width * f.height)
  (List.range n_planes).map fun p =>
    ⟨f.data.drop p, f.width, f.height, n_planes, n_planes * f.width⟩

/-- RGB48Frame::encode (src/frame.rs lines 95-105): a 2-bit header holding
planes().len() - 1, flushed to a byte, then each plane's stream. -/
def RGB48Frame.encode (f : RGB48Frame) : List Nat :=
  (BitstreamWriter.flush (BitstreamWriter.write_bits BitstreamWriter.new (f.planes.length - 1) 2)).output
    ++ f.planes.flatMap Codec.encode

/-- The plane loop of RGB48Frame::decode: decode each plane into the slice
`buffer[p..]` of the shared buffer, advancing the byte source. -/
def decodePlanesGo (n_planes width height : Nat) :
    Nat → Nat → List Nat → List Nat → Option (List Nat × List Nat)
  | 0, _, buffer, src => some (buffer, src)
  | fuel + 1, p, buffer, src =>
      match Codec.decode src ⟨buffer.drop p, width, height, n_planes, n_planes * width⟩ with
      | none => none
      | some (plane, src) =>
          decodePlanesGo n_planes width height fuel (p + 1) (buffer.take p ++ plane.data) src

/-- RGB48Frame::decode (src/frame.rs lines 107-134): read the 2-bit header
from a temporary Bitstream (consuming one source byte), allocate a zeroed
buffer of width * height * n_planes samples, then decode each plane. -/
def RGB48Frame.decode (source : List Nat) (width height : Nat) : Option RGB48Frame :=
  match (Bitstream.new source).read_bits 2 with
  | none => none
  | some (v, r) =>
      let n_planes := v + 1
      match decodePlanesGo n_planes width height n_planes 0
          (List.replicate (width * height * n_planes) 0) r.input with
      | none => none
      | some (buffer, _) => some ⟨buffer, width, height⟩

/-! ## Specification-side abstractions -/

/-- The abstract bit string a writer has produced: its emitted bytes
followed by the staged fractional byte. -/
def BitstreamWriter.wBits (w : BitstreamWriter) : List Bool :=
  bytesToBits w.output ++ natToBits w.next_bits_length w.next_bits

/-- Writer well-formedness: staged length below one byte (the drain loop
guarantees this) and emitted bytes in range. -/
def WValid (w : BitstreamWriter) : Prop :=
  w.next_bits_length < 8 ∧ ∀ b ∈ w.output, b < 256

/-- The abstract bit string a reader can still deliver: its staged bits
followed by the bits of the unpulled bytes. -/
def Bitstream.rBits (r : Bitstream) : List Bool :=
  natToBits r.next_bits_length r.next_bits ++ bytesToBits r.input

/-- Reader well-formedness: staged length below one byte and byte values in
range. -/
def RValid (r : Bitstream) : Prop :=
  r.next_bits_length < 8 ∧ ∀ b ∈ r.input, b < 256

/-- ReaderAt B t r: the reader r is a fresh reader over the byte list B from
which exactly t bits have been consumed (so ceil(t / 8) bytes are pulled and
the staged bits are the tail of the last pulled byte). -/
def ReaderAt (B : List Nat) (t : Nat) (r : Bitstream) : Prop :=
  t ≤ 8 * B.length ∧
  r.input = B.drop ((t + 7) / 8) ∧
  r.next_bits_length = 8 * ((t + 7) / 8) - t ∧
  natToBits r.next_bits_length r.next_bits = ((bytesToBits B).drop t).take r.next_bits_length

/-- The exact bit pattern encode_value emits for the folded value u with
parameter k: the unary prefix (u >>> k zero bits and a one bit) followed by
the low k bits of u. -/
def encBitsU (k u : Nat) : List Bool :=
  List.replicate (u >>> k) false ++ true :: natToBits k u

/-- The bits the encoder's column loop emits, as a pure function (proved to
match encCols below). -/
def encColsBits (p : Plane) (row : Nat) : Nat → Nat → Nat → Nat → Nat → List Bool
  | 0, _, _, _, _ => []
  | fuel + 1, col, a, b, c =>
      let x := p.data.getD (row * p.row_stride + col * p.sample_stride) 0
      let d := if 0 < row ∧ col + 1 < p.width then
        p.data.getD ((row - 1) * p.row_stride + (col + 1) * p.sample_stride) 0 else 0
      encBitsU (k a b c d) (zigzag_fold ((x : Int) - fixed_prediction a b c)) ++
        encColsBits p row fuel (col + 1) x d b

/-- The bits the encoder's row loop emits, as a pure function. -/
def encRowsBits (p : Plane) : Nat → Nat → Nat → List Bool
  | _, 0, _ => []
  | row, fuel + 1, b =>
      encColsBits p row p.width 0 0 b 0 ++
        encRowsBits p (row + 1) fuel (p.data.getD (row * p.row_stride) 0)

/-- A sequence of write_bits calls, first element first. -/
def writeAll (w : BitstreamWriter) : List (Nat × Nat) → BitstreamWriter
  | [] => w
  | q :: qs => writeAll (w.write_bits q.1 q.2) qs

/-- A sequence of read_bits calls with the given widths. -/
def readAll (r : Bitstream) : List Nat → Option (List Nat)
  | [] => some []
  | n :: ns =>
      match r.read_bits n with
      | none => none
      | some (v, r1) =>
          match readAll r1 ns with
          | none => none
          | some vs => some (v :: vs)

/-- The concatenated bit pattern of a sequence of (bits, len) writes. -/
def symbolBits : List (Nat × Nat) → List Bool
  | [] => []
  | q :: qs => natToBits q.2 q.1 ++ symbolBits qs

end HVC

/-! # Proofs

## Bit-list basics -/

namespace HVC

theorem natToBits_length (n v : Nat) : (natToBits n v).length = n := by
  induction n generalizing v with
  | zero => rfl
  | succ n ih => simp [natToBits, ih]

theorem natToBits_congr {n x y : Nat} (h : ∀ i, i < n → x.testBit i = y.testBit i) :
    natToBits n x = natToBits n y := by
  induction n with
  | zero => rfl
  | succ n ih =>
      simp only [natToBits]
      rw [h n (Nat.lt_succ_self n), ih fun i hi => h i (Nat.lt_succ_of_lt hi)]

theorem natToBits_mod (n v : Nat) : natToBits n (v % 2 ^ n) = natToBits n v := by
  refine natToBits_congr fun i hi => ?_
  simp [Nat.testBit_mod_two_pow, hi]

theorem natToBits_split (m n v : Nat) :
    natToBits (m + n) v = natToBits m (v >>> n) ++ natToBits n v := by
  induction m with
  | zero => simp [natToBits]
  | succ m ih =>
      have e : m + 1 + n = (m + n) + 1 := by omega
      rw [e]
      show v.testBit (m + n) :: natToBits (m + n) v = _
      rw [ih]
      show _ = (v >>> n).testBit m :: (natToBits m (v >>> n) ++ natToBits n v)
      rw [Nat.testBit_shiftRight, Nat.add_comm n m]

theorem natToBits_zero (n : Nat) : natToBits n 0 = List.replicate n false := by
  induction n with
  | zero => rfl
  | succ n ih => simp [natToBits, ih, Nat.zero_testBit, List.replicate_succ]

theorem natToBits_one {n : Nat} (h : 1 ≤ n) :
    natToBits n 1 = List.replicate (n - 1) false ++ [true] := by
  obtain ⟨m, rfl⟩ : ∃ m, n = m + 1 := ⟨n - 1, by omega⟩
  rw [natToBits_split m 1 1]
  have h1 : (1 : Nat) >>> 1 = 0 := rfl
  have h2 : natToBits 1 1 = [true] := rfl
  rw [h1, h2, natToBits_zero]
  simp

theorem bitsToNat_gen (l : List Bool) (acc : Nat) :
    l.foldl (fun a b => 2 * a + cond b 1 0) acc = acc * 2 ^ l.length + bitsToNat l := by
  induction l generalizing acc with
  | nil => simp [bitsToNat]
  | cons b t ih =>
      simp only [List.foldl_cons, bitsToNat, List.length_cons]
      rw [ih (2 * acc + cond b 1 0), ih (2 * 0 + cond b 1 0)]
      ring

theorem bitsToNat_cons (b : Bool) (l : List Bool) :
    bitsToNat (b :: l) = cond b 1 0 * 2 ^ l.length + bitsToNat l := by
  show List.foldl _ (2 * 0 + cond b 1 0) l = _
  rw [bitsToNat_gen]
  ring_nf

theorem bitsToNat_append (l1 l2 : List Bool) :
    bitsToNat (l1 ++ l2) = bitsToNat l1 * 2 ^ l2.length + bitsToNat l2 := by
  show List.foldl _ 0 (l1 ++ l2) = _
  rw [List.foldl_append, bitsToNat_gen]
  rfl

theorem bitsToNat_lt (l : List Bool) : bitsToNat l < 2 ^ l.length := by
  induction l with
  | nil => simp [bitsToNat]
  | cons b t ih =>
      rw [bitsToNat_cons]
      have h2 : (2 : Nat) ^ (b :: t).length = 2 * 2 ^ t.length := by
        rw [List.length_cons, Nat.pow_succ]; ring
      rw [h2]
      rcases b <;> simp only [cond] <;> omega

theorem bitsToNat_natToBits (n v : Nat) : bitsToNat (natToBits n v) = v % 2 ^ n := by
  induction n generalizing v with
  | zero => simp [natToBits, bitsToNat, Nat.mod_one]
  | succ n ih =>
      rw [show n + 1 = 1 + n by omega, natToBits_split 1 n v, bitsToNat_append, ih,
        natToBits_length]
      have h1 : natToBits 1 (v >>> n) = [(v >>> n).testBit 0] := rfl
      have h2 : bitsToNat [(v >>> n).testBit 0] = v >>> n % 2 := by
        rw [h1.symm.trans h1, bitsToNat_cons]
        rcases Nat.mod_two_eq_zero_or_one (v >>> n) with h | h <;>
          simp [Nat.testBit_zero, h, bitsToNat]
      rw [h1, h2, Nat.shiftRight_eq_div_pow]
      have h4 : (2 : Nat) ^ (1 + n) = 2 ^ n * 2 := by rw [Nat.pow_add]; ring
      rw [h4, Nat.mod_mul]
      ring

theorem natToBits_bitsToNat (l : List Bool) : natToBits l.length (bitsToNat l) = l := by
  induction l with
  | nil => rfl
  | cons b t ih =>
      rw [List.length_cons, bitsToNat_cons]
      show (cond b 1 0 * 2 ^ t.length + bitsToNat t).testBit t.length :: _ = _
      have hlt := bitsToNat_lt t
      have hhead : (cond b 1 0 * 2 ^ t.length + bitsToNat t).testBit t.length = b := by
        rw [Nat.testBit_to_div_mod]
        have hdiv : (cond b 1 0 * 2 ^ t.length + bitsToNat t) / 2 ^ t.length = cond b 1 0 := by
          rw [Nat.mul_comm (cond b 1 0), Nat.mul_add_div (Nat.pos_pow_of_pos _ (by norm_num))]
          rw [Nat.div_eq_of_lt hlt]
          omega
        rw [hdiv]
        rcases b <;> simp
      rw [hhead]
      have hmod : (cond b 1 0 * 2 ^ t.length + bitsToNat t) % 2 ^ t.length =
          bitsToNat t % 2 ^ t.length := by
        conv_lhs => rw [Nat.add_comm, Nat.mul_comm]
        exact Nat.add_mul_mod_self_left _ _ _
      have htail : natToBits t.length (cond b 1 0 * 2 ^ t.length + bitsToNat t) =
          natToBits t.length (bitsToNat t) := by
        refine natToBits_congr fun i hi => ?_
        have h1 : ∀ x : Nat, x.testBit i = (x % 2 ^ t.length).testBit i := by
          intro x
          simp [Nat.testBit_mod_two_pow, hi]
        rw [h1, hmod, ← h1]
      rw [htail, ih]

/-! ## Byte lists and word-level helpers -/

theorem bytesToBits_nil : bytesToBits [] = [] := rfl

theorem bytesToBits_cons (b : Nat) (bs : List Nat) :
    bytesToBits (b :: bs) = natToBits 8 b ++ bytesToBits bs := rfl

theorem bytesToBits_append (b1 b2 : List Nat) :
    bytesToBits (b1 ++ b2) = bytesToBits b1 ++ bytesToBits b2 := by
  simp [bytesToBits]

theorem bytesToBits_length (bs : List Nat) : (bytesToBits bs).length = 8 * bs.length := by
  induction bs with
  | nil => rfl
  | cons b t ih =>
      rw [bytesToBits_cons, List.length_append, natToBits_length, ih, List.length_cons]
      ring

theorem bytesToBits_drop (p : Nat) (bs : List Nat) :
    bytesToBits (bs.drop p) = (bytesToBits bs).drop (8 * p) := by
  induction p generalizing bs with
  | zero => simp
  | succ p ih =>
      cases bs with
      | nil => simp [bytesToBits]
      | cons b t =>
          rw [List.drop_succ_cons, ih, bytesToBits_cons]
          rw [show 8 * (p + 1) = 8 + 8 * p by ring, ← List.drop_drop]
          have hdl : (natToBits 8 b ++ bytesToBits t).drop 8 = bytesToBits t := by
            have hl : (natToBits 8 b).length = 8 := natToBits_length 8 b
            have h0 := @List.drop_append _ (natToBits 8 b) (bytesToBits t) 0
            rw [Nat.add_zero, hl, List.drop_zero] at h0
            exact h0
          rw [hdl]

/-- Bits of a masked value agree with the unmasked value below the mask width. -/
theorem testBit_of_mod_two_pow {m : Nat} (x : Nat) {i : Nat} (h : i < m) :
    (x % 2 ^ m).testBit i = x.testBit i := by
  simp [Nat.testBit_mod_two_pow, h]

/-- Values below 2 ^ m have no set bits at or above m. -/
theorem testBit_big_of_lt {x m i : Nat} (hx : x < 2 ^ m) (h : m ≤ i) : x.testBit i = false :=
  Nat.testBit_lt_two_pow (Nat.lt_of_lt_of_le hx (Nat.pow_le_pow_right (by norm_num) h))

/-- The low bits of a shift-or composite are the or-ed in value. -/
theorem natToBits_lor_low (nb bits n : Nat) :
    natToBits n (nb <<< n ||| bits) = natToBits n bits := by
  refine natToBits_congr fun i hi => ?_
  rw [Nat.testBit_lor, Nat.testBit_shiftLeft]
  have hd : decide (i ≥ n) = false := by
    simp only [decide_eq_false_iff_not]
    omega
  rw [hd]
  simp

/-- The high bits of a shift-or composite are the original staged bits, as long
as everything stays below the 128-bit wrap. -/
theorem natToBits_lor_high {bits n m : Nat} (nb : Nat) (hb : bits < 2 ^ n) :
    natToBits m ((nb <<< n ||| bits) >>> n) = natToBits m nb := by
  refine natToBits_congr fun i hi => ?_
  rw [Nat.testBit_shiftRight, Nat.testBit_lor, Nat.testBit_shiftLeft]
  have h1 : decide (n + i ≥ n) = true := by
    simp only [decide_eq_true_eq]
    omega
  rw [h1]
  have h2 : bits.testBit (n + i) = false := testBit_big_of_lt hb (by omega)
  rw [h2]
  simp

/-- Wrapping at 2 ^ 128 does not change any bit below 128. -/
theorem natToBits_mod_big {m : Nat} (x : Nat) (h : m ≤ 128) :
    natToBits m (x % 2 ^ 128) = natToBits m x := by
  refine natToBits_congr fun i hi => ?_
  exact testBit_of_mod_two_pow x (by omega)

/-- Nat.land with an all-ones mask is reduction modulo the power of two. -/
theorem and_two_pow_sub_one (x n : Nat) : x &&& (2 ^ n - 1) = x % 2 ^ n := by
  refine Nat.eq_of_testBit_eq fun i => ?_
  rw [Nat.testBit_land, Nat.testBit_two_pow_sub_one, Nat.testBit_mod_two_pow, Bool.and_comm]

/-- Shifting the all-ones 64-bit mask right yields a smaller all-ones mask. -/
theorem ones_shiftRight (s : Nat) (h : s ≤ 64) : (2 ^ 64 - 1) >>> s = 2 ^ (64 - s) - 1 := by
  rw [Nat.shiftRight_eq_div_pow]
  have hpos : 0 < (2 : Nat) ^ s := by positivity
  have e : (2 : Nat) ^ 64 = 2 ^ s * 2 ^ (64 - s) := by
    rw [← Nat.pow_add]
    congr 1
    omega
  obtain ⟨q, hq⟩ : ∃ q, (2 : Nat) ^ (64 - s) = q + 1 := by
    have : 0 < (2 : Nat) ^ (64 - s) := by positivity
    exact ⟨2 ^ (64 - s) - 1, by omega⟩
  rw [e, hq]
  have h1 : (2 : Nat) ^ s * (q + 1) - 1 = 2 ^ s * q + (2 ^ s - 1) := by
    have e2 : (2 : Nat) ^ s * (q + 1) = 2 ^ s * q + 2 ^ s := by ring
    omega
  rw [h1, Nat.mul_add_div hpos, Nat.div_eq_of_lt (by omega)]
  omega

/-- Disjoint or is addition: or-ing a shifted value with one below the shift. -/
theorem shiftLeft_lor_eq_add {b n : Nat} (a : Nat) (hb : b < 2 ^ n) :
    a <<< n ||| b = a * 2 ^ n + b := by
  have hlow : (a <<< n ||| b) % 2 ^ n = b := by
    have h1 : ∀ i, i < n → (a <<< n ||| b).testBit i = b.testBit i := by
      intro i hi
      rw [Nat.testBit_lor, Nat.testBit_shiftLeft]
      have hd : decide (i ≥ n) = false := by
        simp only [decide_eq_false_iff_not]
        omega
      rw [hd]
      simp
    have h2 : (a <<< n ||| b) % 2 ^ n = b % 2 ^ n := by
      refine Nat.eq_of_testBit_eq fun i => ?_
      rcases Nat.lt_or_ge i n with h | h
      · rw [testBit_of_mod_two_pow _ h, testBit_of_mod_two_pow _ h, h1 i h]
      · rw [Nat.testBit_mod_two_pow, Nat.testBit_mod_two_pow]
        simp [Nat.not_lt.mpr h]
    rw [h2, Nat.mod_eq_of_lt hb]
  have hhigh : (a <<< n ||| b) >>> n = a := by
    refine Nat.eq_of_testBit_eq fun i => ?_
    rw [Nat.testBit_shiftRight, Nat.testBit_lor, Nat.testBit_shiftLeft]
    have h1 : decide (n + i ≥ n) = true := by simp
    rw [h1, testBit_big_of_lt hb (by omega : n ≤ n + i)]
    simp
  have hdm := Nat.div_add_mod (a <<< n ||| b) (2 ^ n)
  rw [← Nat.shiftRight_eq_div_pow, hhigh, hlow, Nat.mul_comm] at hdm
  omega

/-- Xor decomposition through the lowest bit. -/
theorem xor_two_mul_add {r1 r2 : Nat} (a b : Nat) (h1 : r1 < 2) (h2 : r2 < 2) :
    (2 * a + r1) ^^^ (2 * b + r2) = 2 * (a ^^^ b) + (r1 ^^^ r2) := by
  have hx : r1 ^^^ r2 < 2 := by interval_cases r1 <;> interval_cases r2 <;> decide
  refine Nat.eq_of_testBit_eq fun i => ?_
  cases i with
  | zero =>
      rw [Nat.testBit_xor, Nat.testBit_zero, Nat.testBit_zero, Nat.testBit_zero]
      have e1 : (2 * a + r1) % 2 = r1 := by omega
      have e2 : (2 * b + r2) % 2 = r2 := by omega
      have e3 : (2 * (a ^^^ b) + (r1 ^^^ r2)) % 2 = r1 ^^^ r2 := by omega
      rw [e1, e2, e3]
      interval_cases r1 <;> interval_cases r2 <;> decide
  | succ i =>
      rw [Nat.testBit_xor, Nat.testBit_succ, Nat.testBit_succ, Nat.testBit_succ]
      have e1 : (2 * a + r1) / 2 = a := by omega
      have e2 : (2 * b + r2) / 2 = b := by omega
      have e3 : (2 * (a ^^^ b) + (r1 ^^^ r2)) / 2 = a ^^^ b := by omega
      rw [e1, e2, e3, Nat.testBit_xor]

/-- Xor with an all-ones mask is complement within the mask. -/
theorem xor_all_ones {n m : Nat} (h : m < 2 ^ n) : (2 ^ n - 1) ^^^ m = 2 ^ n - 1 - m := by
  induction n generalizing m with
  | zero =>
      have : m = 0 := by omega
      subst this
      decide
  | succ n ih =>
      have hm2 : m / 2 < 2 ^ n := by
        have : (2 : Nat) ^ (n + 1) = 2 * 2 ^ n := by rw [Nat.pow_succ]; ring
        omega
      have e1 : (2 : Nat) ^ (n + 1) - 1 = 2 * (2 ^ n - 1) + 1 := by
        have h1 : (1 : Nat) ≤ 2 ^ n := Nat.one_le_two_pow
        have : (2 : Nat) ^ (n + 1) = 2 * 2 ^ n := by rw [Nat.pow_succ]; ring
        omega
      have e2 : m = 2 * (m / 2) + m % 2 := by omega
      rw [e1]
      conv_lhs => rw [e2]
      rw [xor_two_mul_add _ _ (by omega) (by omega), ih hm2]
      have h1 : (1 : Nat) ≤ 2 ^ n := Nat.one_le_two_pow
      have hxm : 1 ^^^ m % 2 = 1 - m % 2 := by
        rcases Nat.mod_two_eq_zero_or_one m with h | h <;> rw [h] <;> decide
      rw [hxm]
      have : (2 : Nat) ^ (n + 1) = 2 * 2 ^ n := by rw [Nat.pow_succ]; ring
      omega

/-! ## Writer correctness -/

theorem natToBits_pad {bits m : Nat} (p : Nat) (h : bits < 2 ^ m) :
    natToBits (p + m) bits = natToBits p 0 ++ natToBits m bits := by
  rw [natToBits_split p m bits]
  congr 1
  have hz : bits >>> m = 0 := by
    rw [Nat.shiftRight_eq_div_pow]
    exact Nat.div_eq_of_lt h
  rw [hz]

theorem drainGo_spec (fuel : Nat) : ∀ nb l : Nat, l / 8 ≤ fuel →
    (drainGo fuel nb l).2 = l % 8 ∧
    bytesToBits (drainGo fuel nb l).1 ++ natToBits (l % 8) nb = natToBits l nb ∧
    ∀ byte ∈ (drainGo fuel nb l).1, byte < 256 := by
  induction fuel with
  | zero =>
      intro nb l h
      have hl : l < 8 := by omega
      refine ⟨by show l = l % 8; omega, ?_, ?_⟩
      · show bytesToBits [] ++ _ = _
        rw [bytesToBits_nil, List.nil_append, Nat.mod_eq_of_lt hl]
      · intro byte hby
        simp [drainGo] at hby
  | succ fuel ih =>
      intro nb l h
      by_cases h8 : 8 ≤ l
      · have ihl := ih nb (l - 8) (by omega)
        simp only [drainGo, if_pos h8]
        refine ⟨?_, ?_, ?_⟩
        · rw [ihl.1]
          omega
        · rw [bytesToBits_cons, List.append_assoc]
          have hmod : l % 8 = (l - 8) % 8 := by omega
          rw [hmod, ihl.2.1, natToBits_mod]
          have hsplit : natToBits l nb =
              natToBits 8 (nb >>> (l - 8)) ++ natToBits (l - 8) nb := by
            conv_lhs => rw [show l = 8 + (l - 8) by omega]
            exact natToBits_split 8 (l - 8) nb
          rw [hsplit]
        · intro byte hby
          rcases List.mem_cons.mp hby with hby | hby
          · have hlt : (nb >>> (l - 8)) % 2 ^ 8 < 2 ^ 8 := Nat.mod_lt _ (by norm_num)
            omega
          · exact ihl.2.2 byte hby
      · have hl : l < 8 := by omega
        simp only [drainGo, if_neg h8]
        refine ⟨by omega, ?_, ?_⟩
        · show bytesToBits [] ++ _ = _
          rw [bytesToBits_nil, List.nil_append, Nat.mod_eq_of_lt hl]
        · intro byte hby
          simp at hby

theorem writeCore_output (w : BitstreamWriter) (bits len : Nat) :
    (writeCore w bits len).output = w.output ++
      (drainGo (w.next_bits_length + len) ((w.next_bits <<< len ||| bits) % 2 ^ 128)
        (w.next_bits_length + len)).1 := rfl

theorem writeCore_next_bits (w : BitstreamWriter) (bits len : Nat) :
    (writeCore w bits len).next_bits = (w.next_bits <<< len ||| bits) % 2 ^ 128 := rfl

theorem writeCore_length (w : BitstreamWriter) (bits len : Nat) :
    (writeCore w bits len).next_bits_length =
      (drainGo (w.next_bits_length + len) ((w.next_bits <<< len ||| bits) % 2 ^ 128)
        (w.next_bits_length + len)).2 := rfl

theorem writeCore_spec (w : BitstreamWriter) (bits len : Nat) (hw : WValid w)
    (hlen : len ≤ 64) (hb : bits < 2 ^ len) :
    (writeCore w bits len).wBits = w.wBits ++ natToBits len bits ∧
    WValid (writeCore w bits len) := by
  obtain ⟨hw8, hwb⟩ := hw
  have hL : w.next_bits_length + len ≤ 128 := by omega
  have hstag : natToBits (w.next_bits_length + len) ((w.next_bits <<< len ||| bits) % 2 ^ 128) =
      natToBits w.next_bits_length w.next_bits ++ natToBits len bits := by
    rw [natToBits_mod_big _ hL, natToBits_split, natToBits_lor_high _ hb, natToBits_lor_low]
  have hd := drainGo_spec (w.next_bits_length + len) ((w.next_bits <<< len ||| bits) % 2 ^ 128)
    (w.next_bits_length + len) (Nat.div_le_self _ _)
  refine ⟨?_, ?_, ?_⟩
  · rw [BitstreamWriter.wBits, writeCore_output, writeCore_next_bits, writeCore_length,
      bytesToBits_append, List.append_assoc, hd.1, hd.2.1, hstag, BitstreamWriter.wBits,
      List.append_assoc]
  · rw [writeCore_length, hd.1]
    omega
  · intro byte hby
    rw [writeCore_output] at hby
    rcases List.mem_append.mp hby with hby | hby
    · exact hwb byte hby
    · exact hd.2.2 byte hby

theorem writeBitsGo_spec (fuel : Nat) : ∀ (w : BitstreamWriter) (bits len : Nat), WValid w →
    len ≤ 64 * fuel + 64 → bits < 2 ^ len → bits < 2 ^ 64 →
    (writeBitsGo fuel w bits len).wBits = w.wBits ++ natToBits len bits ∧
    WValid (writeBitsGo fuel w bits len) := by
  induction fuel with
  | zero =>
      intro w bits len hw hfuel hb hb64
      exact writeCore_spec w bits len hw (by omega) hb
  | succ fuel ih =>
      intro w bits len hw hfuel hb hb64
      by_cases h128 : 128 ≤ len
      · simp only [writeBitsGo, if_pos h128]
        have hc := writeCore_spec w 0 64 hw (by omega) (by positivity)
        have hb2 : bits < 2 ^ (len - 64) := by
          calc bits < 2 ^ 64 := hb64
            _ ≤ 2 ^ (len - 64) := Nat.pow_le_pow_right (by norm_num) (by omega)
        have ihs := ih (writeCore w 0 64) bits (len - 64) hc.2 (by omega) hb2 hb64
        refine ⟨?_, ihs.2⟩
        rw [ihs.1, hc.1, natToBits_zero, List.append_assoc]
        rw [show len = 64 + (len - 64) by omega, natToBits_pad 64 hb2, natToBits_zero]
        rw [show 64 + (len - 64) - 64 = len - 64 by omega]
      · by_cases h64 : 64 < len
        · simp only [writeBitsGo, if_neg h128, if_pos h64]
          have hc1 := writeCore_spec w 0 (len - 64) hw (by omega) (by positivity)
          have hc2 := writeCore_spec (writeCore w 0 (len - 64)) bits 64 hc1.2 (by omega) hb64
          refine ⟨?_, hc2.2⟩
          rw [hc2.1, hc1.1, natToBits_zero, List.append_assoc]
          rw [show len = (len - 64) + 64 by omega, natToBits_pad (len - 64) hb64, natToBits_zero]
          rw [show len - 64 + 64 - 64 = len - 64 by omega]
        · simp only [writeBitsGo, if_neg h128, if_neg h64]
          exact writeCore_spec w bits len hw (by omega) hb

theorem write_bits_spec (w : BitstreamWriter) (bits len : Nat) (hw : WValid w)
    (hb : bits < 2 ^ len) (hb64 : bits < 2 ^ 64) :
    (w.write_bits bits len).wBits = w.wBits ++ natToBits len bits ∧
    WValid (w.write_bits bits len) :=
  writeBitsGo_spec len w bits len hw (by omega) hb hb64

theorem new_wValid : WValid BitstreamWriter.new :=
  ⟨by norm_num [BitstreamWriter.new], by intro b hb; simp [BitstreamWriter.new] at hb⟩

theorem new_wBits : BitstreamWriter.new.wBits = [] := rfl

theorem natToBits_flush_byte (nb lw : Nat) (h0 : 0 < lw) (h8 : lw < 8) :
    natToBits 8 ((nb <<< (8 - lw)) % 2 ^ 8) = natToBits lw nb ++ natToBits (8 - lw) 0 := by
  rw [natToBits_mod]
  obtain ⟨s, hs⟩ : ∃ s, 8 - lw = s := ⟨8 - lw, rfl⟩
  rw [hs]
  have h8e : (8 : Nat) = lw + s := by omega
  rw [h8e, natToBits_split lw s]
  have hlor : nb <<< s = nb <<< s ||| 0 := (Nat.or_zero _).symm
  rw [hlor, natToBits_lor_high _ (by positivity), natToBits_lor_low]

theorem flush_spec (w : BitstreamWriter) (hw : WValid w) :
    bytesToBits (w.flush).output =
      w.wBits ++ natToBits ((8 - w.next_bits_length) % 8) 0 ∧
    (w.flush).output.length = (w.wBits.length + 7) / 8 ∧
    (∀ byte ∈ (w.flush).output, byte < 256) := by
  obtain ⟨hw8, hwb⟩ := hw
  have hwlen : w.wBits.length = 8 * w.output.length + w.next_bits_length := by
    rw [BitstreamWriter.wBits, List.length_append, bytesToBits_length, natToBits_length]
  by_cases h0 : 0 < w.next_bits_length
  · simp only [BitstreamWriter.flush, if_pos h0]
    refine ⟨?_, ?_, ?_⟩
    · show bytesToBits (w.output ++ _) = _
      rw [bytesToBits_append, bytesToBits_cons, bytesToBits_nil, List.append_nil,
        natToBits_flush_byte w.next_bits w.next_bits_length h0 hw8,
        BitstreamWriter.wBits, List.append_assoc,
        show (8 - w.next_bits_length) % 8 = 8 - w.next_bits_length by omega]
    · show (w.output ++ _).length = _
      rw [List.length_append, hwlen]
      simp only [List.length_cons, List.length_nil]
      omega
    · intro byte hby
      rcases List.mem_append.mp hby with hby | hby
      · exact hwb byte hby
      · rw [List.mem_singleton] at hby
        subst hby
        exact Nat.mod_lt _ (by norm_num)
  · have hz : w.next_bits_length = 0 := by omega
    simp only [BitstreamWriter.flush, if_neg h0]
    refine ⟨?_, ?_, hwb⟩
    · rw [show (8 - w.next_bits_length) % 8 = 0 by omega, BitstreamWriter.wBits, hz]
      simp [natToBits]
    · rw [hwlen, hz]
      omega

/-! ## Reader correctness -/

theorem natToBits_take {nL n : Nat} (nb : Nat) (h : n ≤ nL) :
    (natToBits nL nb).take n = natToBits n (nb >>> (nL - n)) := by
  conv_lhs => rw [show nL = n + (nL - n) by omega]
  rw [natToBits_split, List.take_append_of_le_length (by rw [natToBits_length]),
    List.take_of_length_le (by rw [natToBits_length])]

theorem natToBits_drop_eq {nL n : Nat} (nb : Nat) (h : n ≤ nL) :
    (natToBits nL nb).drop n = natToBits (nL - n) nb := by
  conv_lhs => rw [show nL = n + (nL - n) by omega]
  rw [natToBits_split, List.drop_append_of_le_length (by rw [natToBits_length]),
    List.drop_eq_nil_of_le (by rw [natToBits_length]), List.nil_append]

theorem rBits_take_staged (r : Bitstream) :
    natToBits r.next_bits_length r.next_bits = r.rBits.take r.next_bits_length := by
  rw [Bitstream.rBits, List.take_append_of_le_length (by rw [natToBits_length])]
  exact (List.take_of_length_le (by rw [natToBits_length])).symm

theorem fillBits_eof {n : Nat} : ∀ (input : List Nat) (nb len : Nat),
    len + 8 * input.length < n → fillBits n input nb len = none := by
  intro input
  induction input with
  | nil =>
      intro nb len h
      simp only [List.length_nil] at h
      simp only [fillBits, if_pos (by omega : len < n)]
  | cons b rest ih =>
      intro nb len h
      simp only [List.length_cons] at h
      simp only [fillBits, if_pos (by omega : len < n)]
      exact ih _ _ (by omega)

theorem fillBits_ok {n : Nat} (hn : n ≤ 64) : ∀ (input : List Nat) (nb len : Nat),
    (∀ b ∈ input, b < 256) → len < n + 8 → n ≤ len + 8 * input.length →
    ∃ nb', fillBits n input nb len =
        some (input.drop ((n - len + 7) / 8), nb', len + 8 * ((n - len + 7) / 8)) ∧
      natToBits (len + 8 * ((n - len + 7) / 8)) nb' =
        natToBits len nb ++ bytesToBits (input.take ((n - len + 7) / 8)) := by
  intro input
  induction input with
  | nil =>
      intro nb len hby hlt hav
      simp only [List.length_nil] at hav
      have hm : (n - len + 7) / 8 = 0 := by omega
      refine ⟨nb, ?_, ?_⟩
      · simp only [fillBits, if_neg (by omega : ¬ len < n), hm, List.drop_nil]
        rw [show len + 8 * 0 = len by omega]
      · rw [hm, show len + 8 * 0 = len by omega]
        simp [bytesToBits]
  | cons b rest ih =>
      intro nb len hby hlt hav
      by_cases hlen : len < n
      · have hbb : b < 256 := hby b (List.mem_cons_self b rest)
        have hbr : ∀ x ∈ rest, x < 256 := fun x hx => hby x (List.mem_cons_of_mem b hx)
        simp only [List.length_cons] at hav
        obtain ⟨nb', hfill, hbits⟩ := ih ((nb <<< 8 ||| b) % 2 ^ 128) (len + 8) hbr
          (by omega) (by omega)
        have hm : (n - len + 7) / 8 = (n - (len + 8) + 7) / 8 + 1 := by omega
        have hstage : natToBits (len + 8) ((nb <<< 8 ||| b) % 2 ^ 128) =
            natToBits len nb ++ natToBits 8 b := by
          rw [natToBits_mod_big _ (by omega), natToBits_split,
            natToBits_lor_high _ hbb, natToBits_lor_low]
        refine ⟨nb', ?_, ?_⟩
        · simp only [fillBits, if_pos hlen]
          rw [hfill, hm, List.drop_succ_cons]
          rw [show len + 8 * ((n - (len + 8) + 7) / 8 + 1) =
            len + 8 + 8 * ((n - (len + 8) + 7) / 8) by ring]
        · rw [hm, List.take_succ_cons, bytesToBits_cons,
            show len + 8 * ((n - (len + 8) + 7) / 8 + 1) =
              len + 8 + 8 * ((n - (len + 8) + 7) / 8) by ring,
            hbits, hstage, List.append_assoc]
      · have hm : (n - len + 7) / 8 = 0 := by omega
        refine ⟨nb, ?_, ?_⟩
        · simp only [fillBits, if_neg hlen, hm, List.drop_zero]
          rw [show len + 8 * 0 = len by omega]
        · rw [hm, show len + 8 * 0 = len by omega]
          simp [bytesToBits]

theorem nextBits_eof (r : Bitstream) (n : Nat)
    (h : r.next_bits_length + 8 * r.input.length < n) :
    r.nextBits n = none ∧ r.read_bits n = none := by
  have hf := fillBits_eof r.input r.next_bits r.next_bits_length h
  constructor
  · rw [Bitstream.nextBits, hf]
  · rw [Bitstream.read_bits, Bitstream.nextBits, hf]

theorem nextBits_ok (r : Bitstream) (n : Nat) (hr : RValid r) (hn : n ≤ 64)
    (hav : n ≤ r.next_bits_length + 8 * r.input.length) :
    ∃ r1, r.nextBits n = some (bitsToNat (r.rBits.take n), r1) ∧
      r1.rBits = r.rBits ∧
      r1.input = r.input.drop ((n - r.next_bits_length + 7) / 8) ∧
      r1.next_bits_length =
        r.next_bits_length + 8 * ((n - r.next_bits_length + 7) / 8) ∧
      n ≤ r1.next_bits_length ∧ r1.next_bits_length < n + 8 ∧
      (∀ b ∈ r1.input, b < 256) := by
  obtain ⟨hr8, hrb⟩ := hr
  obtain ⟨nb', hfill, hbits⟩ := fillBits_ok hn r.input r.next_bits r.next_bits_length hrb
    (by omega) hav
  have hnle : n ≤ r.next_bits_length + 8 * ((n - r.next_bits_length + 7) / 8) := by omega
  have hlt8 : r.next_bits_length + 8 * ((n - r.next_bits_length + 7) / 8) < n + 8 := by omega
  have hmle : (n - r.next_bits_length + 7) / 8 ≤ r.input.length := by omega
  have htklen : (natToBits r.next_bits_length r.next_bits ++
      bytesToBits (r.input.take ((n - r.next_bits_length + 7) / 8))).length =
      r.next_bits_length + 8 * ((n - r.next_bits_length + 7) / 8) := by
    rw [List.length_append, natToBits_length, bytesToBits_length, List.length_take]
    omega
  have hval : nb' >>> (r.next_bits_length + 8 * ((n - r.next_bits_length + 7) / 8) - n) &&&
      ((2 ^ 64 - 1) >>> (64 - n)) = bitsToNat (r.rBits.take n) := by
    rw [ones_shiftRight (64 - n) (by omega), show 64 - (64 - n) = n by omega,
      and_two_pow_sub_one, ← bitsToNat_natToBits n
        (nb' >>> (r.next_bits_length + 8 * ((n - r.next_bits_length + 7) / 8) - n))]
    congr 1
    rw [← natToBits_take nb' hnle, hbits, Bitstream.rBits]
    conv_rhs => rw [← List.take_append_drop ((n - r.next_bits_length + 7) / 8) r.input,
      bytesToBits_append, ← List.append_assoc,
      List.take_append_of_le_length (by rw [htklen]; exact hnle)]
  refine ⟨⟨r.input.drop ((n - r.next_bits_length + 7) / 8), nb',
    r.next_bits_length + 8 * ((n - r.next_bits_length + 7) / 8)⟩, ?_, ?_, rfl, rfl, hnle,
    hlt8, ?_⟩
  · rw [Bitstream.nextBits, hfill, ← hval]
  · show natToBits _ nb' ++ bytesToBits (r.input.drop _) = _
    rw [hbits, List.append_assoc, ← bytesToBits_append, List.take_append_drop, Bitstream.rBits]
  · intro b hb
    exact hrb b (List.drop_subset _ _ hb)

theorem read_bits_ok (r : Bitstream) (n : Nat) (hr : RValid r) (hn : n ≤ 64)
    (hav : n ≤ r.next_bits_length + 8 * r.input.length) :
    ∃ r2, r.read_bits n = some (bitsToNat (r.rBits.take n), r2) ∧
      r2.rBits = r.rBits.drop n ∧ RValid r2 ∧
      r2.input = r.input.drop ((n - r.next_bits_length + 7) / 8) ∧
      r2.next_bits_length =
        r.next_bits_length + 8 * ((n - r.next_bits_length + 7) / 8) - n := by
  obtain ⟨r1, hpeek, hrr, hinp, hlen, hnle, hlt8, hbytes⟩ := nextBits_ok r n hr hn hav
  refine ⟨{ r1 with next_bits_length := r1.next_bits_length - n }, ?_, ?_, ?_, ?_, ?_⟩
  · rw [Bitstream.read_bits, hpeek]
  · show natToBits (r1.next_bits_length - n) r1.next_bits ++ bytesToBits r1.input =
      r.rBits.drop n
    rw [← natToBits_drop_eq r1.next_bits hnle, ← List.drop_append_of_le_length
      (by rw [natToBits_length]; exact hnle)]
    rw [show natToBits r1.next_bits_length r1.next_bits ++ bytesToBits r1.input =
      r1.rBits from rfl, hrr]
  · refine ⟨by show r1.next_bits_length - n < 8; omega, ?_⟩
    intro b hb
    exact hbytes b hb
  · rw [show ({ r1 with next_bits_length := r1.next_bits_length - n } : Bitstream).input =
      r1.input from rfl, hinp]
  · show r1.next_bits_length - n = _
    omega

/-! ## ReaderAt: a reader that has consumed exactly t bits of a byte list -/

theorem readerAt_new (B : List Nat) : ReaderAt B 0 (Bitstream.new B) := by
  refine ⟨by omega, by simp [Bitstream.new], by norm_num [Bitstream.new], ?_⟩
  norm_num [Bitstream.new, natToBits]

theorem ReaderAt.valid {B : List Nat} {t : Nat} {r : Bitstream}
    (hB : ∀ b ∈ B, b < 256) (h : ReaderAt B t r) : RValid r := by
  obtain ⟨ht, hinp, hlen, hstag⟩ := h
  refine ⟨by rw [hlen]; omega, ?_⟩
  rw [hinp]
  intro b hb
  exact hB b (List.drop_subset _ _ hb)

theorem ReaderAt.total {B : List Nat} {t : Nat} {r : Bitstream} (h : ReaderAt B t r) :
    r.next_bits_length + 8 * r.input.length = 8 * B.length - t := by
  obtain ⟨ht, hinp, hlen, hstag⟩ := h
  rw [hinp, hlen, List.length_drop]
  omega

theorem ReaderAt.rBits_eq {B : List Nat} {t : Nat} {r : Bitstream} (h : ReaderAt B t r) :
    r.rBits = (bytesToBits B).drop t := by
  obtain ⟨ht, hinp, hlen, hstag⟩ := h
  rw [Bitstream.rBits, hstag, hinp, bytesToBits_drop]
  have h8p : 8 * ((t + 7) / 8) = t + r.next_bits_length := by omega
  rw [h8p, ← List.drop_drop]
  exact List.take_append_drop _ _

theorem readerAt_read (B : List Nat) {t : Nat} (r : Bitstream) (n : Nat)
    (h : ReaderAt B t r) (hB : ∀ b ∈ B, b < 256) (hn : n ≤ 64)
    (hend : t + n ≤ 8 * B.length) :
    ∃ r2, r.read_bits n = some (bitsToNat (((bytesToBits B).drop t).take n), r2) ∧
      ReaderAt B (t + n) r2 := by
  have hval := ReaderAt.valid hB h
  have htot := ReaderAt.total h
  have hav : n ≤ r.next_bits_length + 8 * r.input.length := by omega
  obtain ⟨r2, hread, hrb2, hval2, hinp2, hlen2⟩ := read_bits_ok r n hval hn hav
  obtain ⟨ht, hinp, hlen, hstag⟩ := h
  have hpm : (t + 7) / 8 + (n - r.next_bits_length + 7) / 8 = (t + n + 7) / 8 := by omega
  refine ⟨r2, ?_, ?_, ?_, ?_, ?_⟩
  · rw [hread, ReaderAt.rBits_eq ⟨ht, hinp, hlen, hstag⟩]
  · omega
  · rw [hinp2, hinp, List.drop_drop, hpm]
  · rw [hlen2, hlen]
    omega
  · have hr2bits : r2.rBits = (bytesToBits B).drop (t + n) := by
      rw [hrb2, ReaderAt.rBits_eq ⟨ht, hinp, hlen, hstag⟩, List.drop_drop]
    rw [rBits_take_staged r2, hr2bits]

/-! ## Entropy coder correctness -/

theorem shiftRight_nonneg_small {x : Int} (s : Nat) (h1 : 0 ≤ x) (h2 : x < 2 ^ s) :
    Int.shiftRight x s = 0 := by
  obtain ⟨m, rfl⟩ := Int.eq_ofNat_of_zero_le h1
  show Int.ofNat (m >>> s) = 0
  rw [Nat.shiftRight_eq_div_pow]
  have hm : m < 2 ^ s := by exact_mod_cast h2
  rw [Nat.div_eq_of_lt hm]
  rfl

theorem shiftRight_neg_small {x : Int} (s : Nat) (h1 : -(2 ^ s) ≤ x) (h2 : x < 0) :
    Int.shiftRight x s = -1 := by
  obtain ⟨m, rfl⟩ : ∃ m, x = Int.negSucc m := by
    cases x with
    | ofNat m => exact absurd h2 (by simp)
    | negSucc m => exact ⟨m, rfl⟩
  show Int.negSucc (m >>> s) = -1
  rw [Nat.shiftRight_eq_div_pow]
  have hm : m < 2 ^ s := by
    rw [Int.negSucc_eq] at h1
    have : (m : Int) < 2 ^ s := by omega
    exact_mod_cast this
  rw [Nat.div_eq_of_lt hm]
  rfl

theorem shiftRight_ofNat_eq (m s : Nat) : Int.shiftRight (m : Int) s = ((m >>> s : Nat) : Int) :=
  rfl

theorem toU32_nonneg {x : Int} (h1 : 0 ≤ x) (h2 : x < 2 ^ 32) : toU32 x = x.toNat := by
  rw [toU32]
  have h32 : (2 : Int) ^ 32 = 4294967296 := by norm_num
  rw [h32] at h2 ⊢
  omega

theorem toU32_neg {x : Int} (h1 : -(2 ^ 32) ≤ x) (h2 : x < 0) : toU32 x = (2 ^ 32 + x).toNat := by
  rw [toU32]
  have h32 : (2 : Int) ^ 32 = 4294967296 := by norm_num
  rw [h32] at h1 ⊢
  omega

theorem zigzag_fold_nonneg {x : Int} (h1 : 0 ≤ x) (h2 : x < 2 ^ 30) :
    zigzag_fold x = (2 * x).toNat := by
  rw [zigzag_fold, shiftRight_nonneg_small 30 h1 h2]
  have hz : toU32 0 = 0 := by rw [toU32]; omega
  rw [hz, Nat.zero_xor]
  exact toU32_nonneg (by omega) (by
    have : (2 : Int) ^ 32 = 4 * 2 ^ 30 := by norm_num
    omega)

theorem zigzag_fold_neg {x : Int} (h1 : -(2 ^ 30) ≤ x) (h2 : x < 0) :
    zigzag_fold x = (-(2 * x) - 1).toNat := by
  rw [zigzag_fold, shiftRight_neg_small 30 h1 h2]
  have hm1 : toU32 (-1) = 2 ^ 32 - 1 := by rw [toU32]; omega
  rw [hm1]
  have h32 : (2 : Int) ^ 32 = 4 * 2 ^ 30 := by norm_num
  rw [toU32_neg (by omega) (by omega)]
  have hlt : (2 ^ 32 + 2 * x).toNat < 2 ^ 32 := by
    have h32n : ((2 : Nat) ^ 32 : Int) = 2 ^ 32 := by norm_num
    omega
  rw [xor_all_ones hlt]
  have h32n : ((2 : Nat) ^ 32 : Int) = 2 ^ 32 := by norm_num
  omega

theorem zigzag_fold_lt {x : Int} (h1 : -(2 ^ 30) ≤ x) (h2 : x < 2 ^ 30) :
    zigzag_fold x < 2 ^ 31 := by
  rcases Int.lt_or_le x 0 with h | h
  · rw [zigzag_fold_neg h1 h]
    omega
  · rw [zigzag_fold_nonneg h h2]
    omega

theorem asI32_small {u : Nat} (h : u < 2 ^ 31) : asI32 u = u := by
  rw [asI32]
  have hu32 : u % 2 ^ 32 = u := Nat.mod_eq_of_lt (by omega)
  rw [hu32, if_pos h]

theorem asI32_top {u : Nat} (h1 : 2 ^ 31 ≤ u) (h2 : u < 2 ^ 32) : asI32 u = (u : Int) - 2 ^ 32 := by
  rw [asI32]
  have hu32 : u % 2 ^ 32 = u := Nat.mod_eq_of_lt h2
  rw [hu32, if_neg (by omega)]

theorem unzigzag_fold_even {u : Nat} (hu : u < 2 ^ 31) (he : u % 2 = 0) :
    unzigzag_fold u = (u / 2 : Nat) := by
  have hdiv : (u >>> 1 : Nat) = u / 2 := by
    rw [Nat.shiftRight_eq_div_pow, pow_one]
  rw [unzigzag_fold, asI32_small hu, shiftRight_ofNat_eq u 1, hdiv]
  have hlow : (u <<< 31) % 2 ^ 32 = 0 := by
    rw [Nat.shiftLeft_eq_mul_pow]
    have e32 : (2 : Nat) ^ 32 = 2 ^ 31 * 2 := by norm_num
    rw [e32]
    omega
  rw [hlow]
  have hz : asI32 0 = 0 := by
    rw [asI32, if_pos (by omega)]
    omega
  have hz2 : Int.shiftRight (0 : Int) 31 = 0 :=
    @shiftRight_nonneg_small 0 31 (le_refl 0) (by positivity)
  have hz3 : toU32 0 = 0 := by
    rw [toU32]
    omega
  rw [hz, hz2, hz3, Nat.xor_zero]
  have ht : toU32 ((u / 2 : Nat) : Int) = u / 2 := by
    have hnn : (0 : Int) ≤ ((u / 2 : Nat) : Int) := Int.natCast_nonneg _
    have hlt32 : ((u / 2 : Nat) : Int) < 2 ^ 32 := by
      have hn : (u / 2 : Nat) < 2 ^ 32 := by omega
      exact_mod_cast hn
    rw [@toU32_nonneg ((u / 2 : Nat) : Int) hnn hlt32]
    exact Int.toNat_natCast _
  rw [ht, asI32_small (by omega : u / 2 < 2 ^ 31)]

theorem unzigzag_fold_odd {u : Nat} (hu : u < 2 ^ 31) (he : u % 2 = 1) :
    unzigzag_fold u = -((u / 2 : Nat) : Int) - 1 := by
  have hdiv : (u >>> 1 : Nat) = u / 2 := by
    rw [Nat.shiftRight_eq_div_pow, pow_one]
  rw [unzigzag_fold, asI32_small hu, shiftRight_ofNat_eq u 1, hdiv]
  have hlow : (u <<< 31) % 2 ^ 32 = 2 ^ 31 := by
    rw [Nat.shiftLeft_eq_mul_pow]
    have e32 : (2 : Nat) ^ 32 = 2 ^ 31 * 2 := by norm_num
    rw [e32]
    omega
  rw [hlow]
  have htop : asI32 (2 ^ 31) = -(2 ^ 31) := by
    rw [asI32, if_neg (by omega)]
    omega
  have hsr2 : Int.shiftRight (-(2 ^ 31) : Int) 31 = -1 :=
    @shiftRight_neg_small (-(2 ^ 31)) 31 (by norm_num) (by norm_num)
  have hm1 : toU32 (-1) = 2 ^ 32 - 1 := by
    rw [toU32]
    omega
  rw [htop, hsr2, hm1]
  have ht : toU32 ((u / 2 : Nat) : Int) = u / 2 := by
    have hnn : (0 : Int) ≤ ((u / 2 : Nat) : Int) := Int.natCast_nonneg _
    have hlt32 : ((u / 2 : Nat) : Int) < 2 ^ 32 := by
      have hn : (u / 2 : Nat) < 2 ^ 32 := by omega
      exact_mod_cast hn
    rw [@toU32_nonneg ((u / 2 : Nat) : Int) hnn hlt32]
    exact Int.toNat_natCast _
  rw [ht, Nat.xor_comm, xor_all_ones (by omega : u / 2 < 2 ^ 32),
    asI32_top (by omega) (by omega)]
  omega

theorem unzig_zig {x : Int} (h1 : -(2 ^ 30) ≤ x) (h2 : x < 2 ^ 30) :
    unzigzag_fold (zigzag_fold x) = x := by
  rcases Int.lt_or_le x 0 with h | h
  · rw [zigzag_fold_neg h1 h]
    have he : (-(2 * x) - 1).toNat % 2 = 1 := by omega
    rw [unzigzag_fold_odd (by omega) he]
    have hd : (-(2 * x) - 1).toNat / 2 = (-x - 1).toNat := by omega
    rw [hd]
    omega
  · rw [zigzag_fold_nonneg h h2]
    have he : (2 * x).toNat % 2 = 0 := by omega
    rw [unzigzag_fold_even (by omega) he]
    omega

theorem encBitsU_length (kk u : Nat) :
    (encBitsU kk u).length = u >>> kk + 1 + kk := by
  rw [encBitsU, List.length_append, List.length_replicate, List.length_cons, natToBits_length]
  omega

theorem encode_value_spec (kk : Nat) (x : Int) (w : BitstreamWriter) (hw : WValid w)
    (hk : kk ≤ 64) :
    (encode_value kk x w).wBits = w.wBits ++ encBitsU kk (zigzag_fold x) ∧
    WValid (encode_value kk x w) := by
  have hone : (1 : Nat) < 2 ^ (zigzag_fold x >>> kk + 1) := by
    have h0 : (2 : Nat) ^ 1 ≤ 2 ^ (zigzag_fold x >>> kk + 1) :=
      Nat.pow_le_pow_right (by norm_num) (Nat.succ_le_succ (Nat.zero_le _))
    omega
  have h1 := write_bits_spec w 1 (zigzag_fold x >>> kk + 1) hw hone (by norm_num)
  have hmask : zigzag_fold x &&& (1 <<< kk - 1) = zigzag_fold x % 2 ^ kk := by
    rw [Nat.one_shiftLeft, and_two_pow_sub_one]
  have hlt : zigzag_fold x % 2 ^ kk < 2 ^ kk := Nat.mod_lt _ (by positivity)
  have h2 := write_bits_spec (w.write_bits 1 (zigzag_fold x >>> kk + 1))
    (zigzag_fold x &&& (1 <<< kk - 1)) kk h1.2
    (by rw [hmask]; exact hlt)
    (by rw [hmask]; exact Nat.lt_of_lt_of_le hlt (Nat.pow_le_pow_right (by norm_num) hk))
  refine ⟨?_, h2.2⟩
  rw [encode_value]
  rw [h2.1, h1.1, hmask, natToBits_mod,
    natToBits_one (Nat.succ_le_succ (Nat.zero_le (zigzag_fold x >>> kk))), Nat.succ_sub_one,
    List.append_assoc, encBitsU, List.append_assoc, List.singleton_append]

theorem countZerosFuel_spec (h : Nat) : ∀ (fuel : Nat) (B : List Nat) (t : Nat) (r : Bitstream)
    (rest : List Bool), ReaderAt B t r → (∀ b ∈ B, b < 256) →
    (bytesToBits B).drop t = List.replicate h false ++ true :: rest →
    h + 1 ≤ fuel →
    ∃ r2, countZerosFuel fuel r = some (h, r2) ∧ ReaderAt B (t + (h + 1)) r2 := by
  induction h with
  | zero =>
      intro fuel B t r rest hra hB hbits hfuel
      obtain ⟨f, rfl⟩ : ∃ f, fuel = f + 1 := ⟨fuel - 1, by omega⟩
      have hlen : t + 1 ≤ 8 * B.length := by
        have hl := congrArg List.length hbits
        rw [List.length_drop, bytesToBits_length, List.length_append, List.length_replicate,
          List.length_cons] at hl
        omega
      obtain ⟨r2, hread, hra2⟩ := readerAt_read B r 1 hra hB (by omega) hlen
      rw [hbits] at hread
      have hv : bitsToNat ((List.replicate 0 false ++ true :: rest).take 1) = 1 := by
        rw [List.replicate_zero, List.nil_append, List.take_succ_cons, List.take_zero]
        rfl
      rw [hv] at hread
      refine ⟨r2, ?_, hra2⟩
      rw [countZerosFuel, hread]
      rfl
  | succ h ih =>
      intro fuel B t r rest hra hB hbits hfuel
      obtain ⟨f, rfl⟩ : ∃ f, fuel = f + 1 := ⟨fuel - 1, by omega⟩
      have hlen : t + 1 ≤ 8 * B.length := by
        have hl := congrArg List.length hbits
        rw [List.length_drop, bytesToBits_length, List.length_append, List.length_replicate,
          List.length_cons] at hl
        omega
      obtain ⟨r1, hread, hra1⟩ := readerAt_read B r 1 hra hB (by omega) hlen
      rw [hbits] at hread
      have hrepl : List.replicate (h + 1) false ++ true :: rest =
          false :: (List.replicate h false ++ true :: rest) := by
        rw [List.replicate_succ, List.cons_append]
      have hv : bitsToNat ((List.replicate (h + 1) false ++ true :: rest).take 1) = 0 := by
        rw [hrepl, List.take_succ_cons, List.take_zero]
        rfl
      rw [hv] at hread
      have hbits1 : (bytesToBits B).drop (t + 1) = List.replicate h false ++ true :: rest := by
        have hdd : (bytesToBits B).drop (t + 1) = ((bytesToBits B).drop t).drop 1 := by
          rw [List.drop_drop]
        rw [hdd, hbits, hrepl, List.drop_succ_cons, List.drop_zero]
      obtain ⟨r2, hcount, hra2⟩ := ih f B (t + 1) r1 rest hra1 hB hbits1 (by omega)
      refine ⟨r2, ?_, by rw [show t + (h + 1 + 1) = t + 1 + (h + 1) by omega]; exact hra2⟩
      rw [countZerosFuel, hread]
      show (match countZerosFuel f r1 with
        | none => none
        | some (hh, r3) => some (hh + 1, r3)) = _
      rw [hcount]

theorem countZeros_spec {B : List Nat} {t h : Nat} {r : Bitstream} {rest : List Bool}
    (hra : ReaderAt B t r) (hB : ∀ b ∈ B, b < 256)
    (hbits : (bytesToBits B).drop t = List.replicate h false ++ true :: rest) :
    ∃ r2, countZeros r = some (h, r2) ∧ ReaderAt B (t + (h + 1)) r2 := by
  have htot := ReaderAt.total hra
  have hl := congrArg List.length hbits
  rw [List.length_drop, bytesToBits_length, List.length_append, List.length_replicate,
    List.length_cons] at hl
  exact countZerosFuel_spec h (r.next_bits_length + 8 * r.input.length + 1) B t r rest hra hB
    hbits (by omega)

theorem reconstruct_eq {u kk : Nat} (hu : u < 2 ^ 31) (hk : kk ≤ 30) :
    (((u >>> kk) % 2 ^ 32) <<< kk) % 2 ^ 32 ||| (u % 2 ^ kk) % 2 ^ 32 = u := by
  have h1 : u >>> kk % 2 ^ 32 = u >>> kk := by
    rw [Nat.shiftRight_eq_div_pow]
    apply Nat.mod_eq_of_lt
    have : u / 2 ^ kk ≤ u := Nat.div_le_self _ _
    omega
  have h2 : (u >>> kk) <<< kk ≤ u := by
    rw [Nat.shiftRight_eq_div_pow, Nat.shiftLeft_eq_mul_pow]
    exact Nat.div_mul_le_self u (2 ^ kk)
  have h3 : (u >>> kk) <<< kk % 2 ^ 32 = (u >>> kk) <<< kk := by
    apply Nat.mod_eq_of_lt
    omega
  have h4 : u % 2 ^ kk % 2 ^ 32 = u % 2 ^ kk := by
    apply Nat.mod_eq_of_lt
    have : u % 2 ^ kk < 2 ^ kk := Nat.mod_lt _ (by positivity)
    have hle : (2 : Nat) ^ kk ≤ 2 ^ 32 := Nat.pow_le_pow_right (by norm_num) (by omega)
    omega
  rw [h1, h3, h4, shiftLeft_lor_eq_add _ (Nat.mod_lt _ (by positivity)),
    Nat.shiftRight_eq_div_pow, Nat.mul_comm]
  exact Nat.div_add_mod u (2 ^ kk)

theorem decode_value_spec {B : List Nat} {t : Nat} (r : Bitstream) (kk u : Nat)
    (rest : List Bool) (hra : ReaderAt B t r) (hB : ∀ b ∈ B, b < 256)
    (hk : kk ≤ 30) (hu : u < 2 ^ 31)
    (hbits : (bytesToBits B).drop t = encBitsU kk u ++ rest) :
    ∃ r2, decode_value kk r = some (unzigzag_fold u, r2) ∧
      ReaderAt B (t + (encBitsU kk u).length) r2 := by
  have hbits1 : (bytesToBits B).drop t =
      List.replicate (u >>> kk) false ++ true :: (natToBits kk u ++ rest) := by
    rw [hbits, encBitsU, List.append_assoc, List.cons_append]
  obtain ⟨r1, hcount, hra1⟩ := countZeros_spec hra hB hbits1
  have hbits2 : (bytesToBits B).drop (t + (u >>> kk + 1)) = natToBits kk u ++ rest := by
    have hdd : (bytesToBits B).drop (t + (u >>> kk + 1)) =
        ((bytesToBits B).drop t).drop (u >>> kk + 1) := by
      rw [List.drop_drop]
    rw [hdd, hbits1]
    have hre : List.replicate (u >>> kk) false ++ true :: (natToBits kk u ++ rest) =
        (List.replicate (u >>> kk) false ++ [true]) ++ (natToBits kk u ++ rest) := by
      rw [List.append_assoc, List.singleton_append]
    rw [hre]
    have hlen1 : (List.replicate (u >>> kk) false ++ [true]).length = u >>> kk + 1 := by
      rw [List.length_append, List.length_replicate, List.length_cons, List.length_nil]
    have h0 := @List.drop_append _ (List.replicate (u >>> kk) false ++ [true])
      (natToBits kk u ++ rest) 0
    rw [Nat.add_zero, hlen1, List.drop_zero] at h0
    exact h0
  have hread_len : t + (u >>> kk + 1) + kk ≤ 8 * B.length := by
    have hl := congrArg List.length hbits2
    rw [List.length_drop, bytesToBits_length, List.length_append, natToBits_length] at hl
    have hle1 := hra1.1
    omega
  obtain ⟨r2, hread, hra2⟩ := readerAt_read B r1 kk hra1 hB (by omega) hread_len
  rw [hbits2] at hread
  have hval : bitsToNat ((natToBits kk u ++ rest).take kk) = u % 2 ^ kk := by
    rw [List.take_append_of_le_length (by rw [natToBits_length]),
      List.take_of_length_le (by rw [natToBits_length]), bitsToNat_natToBits]
  rw [hval] at hread
  refine ⟨r2, ?_, ?_⟩
  · rw [decode_value, hcount]
    show (match r1.read_bits kk with
      | none => none
      | some (low, source) =>
        some (unzigzag_fold ((u >>> kk % 2 ^ 32) <<< kk % 2 ^ 32 ||| low % 2 ^ 32), source)) = _
    rw [hread]
    show some (unzigzag_fold ((u >>> kk % 2 ^ 32) <<< kk % 2 ^ 32 ||| u % 2 ^ kk % 2 ^ 32), r2) = _
    rw [reconstruct_eq hu hk]
  · rw [encBitsU_length, show t + (u >>> kk + 1 + kk) = t + (u >>> kk + 1) + kk by omega]
    exact hra2

/-! ## Golomb parameter and predictor -/

theorem kLoop_ge (fuel : Nat) : ∀ (A j : Nat), A ≤ 3 * 2 ^ (j + fuel) →
    A ≤ 3 * 2 ^ kLoop fuel A j := by
  induction fuel with
  | zero =>
      intro A j h
      simpa [kLoop] using h
  | succ fuel ih =>
      intro A j h
      by_cases hc : 3 * 2 ^ j < A
      · simp only [kLoop, if_pos hc]
        exact ih A (j + 1) (by rw [show j + 1 + fuel = j + (fuel + 1) by omega]; exact h)
      · simp only [kLoop, if_neg hc]
        omega

theorem kLoop_le (fuel : Nat) : ∀ (A j m : Nat), j ≤ m → A ≤ 3 * 2 ^ m →
    kLoop fuel A j ≤ m := by
  induction fuel with
  | zero =>
      intro A j m hjm _
      simpa [kLoop] using hjm
  | succ fuel ih =>
      intro A j m hjm hm
      by_cases hc : 3 * 2 ^ j < A
      · simp only [kLoop, if_pos hc]
        refine ih A (j + 1) m ?_ hm
        rcases Nat.lt_or_ge j m with h | h
        · omega
        · exfalso
          have hp : (2 : Nat) ^ m ≤ 2 ^ j := Nat.pow_le_pow_right (by norm_num) h
          omega
      · simp only [kLoop, if_neg hc]
        exact hjm

theorem k_def (a b c d : Nat) : k a b c d =
    kLoop (((d : Int) - b).natAbs + ((b : Int) - c).natAbs + ((c : Int) - a).natAbs)
      (((d : Int) - b).natAbs + ((b : Int) - c).natAbs + ((c : Int) - a).natAbs) 0 := rfl

theorem k_ge (a b c d : Nat) :
    ((d : Int) - b).natAbs + ((b : Int) - c).natAbs + ((c : Int) - a).natAbs ≤
      3 * 2 ^ k a b c d := by
  rw [k_def]
  refine kLoop_ge _ _ 0 ?_
  rw [Nat.zero_add]
  have h := Nat.lt_two_pow
    (((d : Int) - b).natAbs + ((b : Int) - c).natAbs + ((c : Int) - a).natAbs)
  omega

theorem k_min (a b c d j : Nat)
    (h : ((d : Int) - b).natAbs + ((b : Int) - c).natAbs + ((c : Int) - a).natAbs ≤ 3 * 2 ^ j) :
    k a b c d ≤ j := by
  rw [k_def]
  exact kLoop_le _ _ 0 j (Nat.zero_le j) h

theorem k_le_16 (a b c d : Nat) (ha : a < 2 ^ 16) (hb : b < 2 ^ 16) (hc : c < 2 ^ 16)
    (hd : d < 2 ^ 16) : k a b c d ≤ 16 := by
  refine k_min a b c d 16 ?_
  have h1 : ((d : Int) - b).natAbs < 2 ^ 16 := by omega
  have h2 : ((b : Int) - c).natAbs < 2 ^ 16 := by omega
  have h3 : ((c : Int) - a).natAbs < 2 ^ 16 := by omega
  omega

theorem fixed_prediction_cases (a b c : Nat) :
    fixed_prediction a b c = (min a b : Nat) ∨ fixed_prediction a b c = (max a b : Nat) ∨
    fixed_prediction a b c = (a : Int) + b - c := by
  rw [fixed_prediction]
  split_ifs <;> simp

theorem fixed_prediction_range (a b c : Nat) (ha : a < 2 ^ 16) (hb : b < 2 ^ 16)
    (hc : c < 2 ^ 16) : 0 ≤ fixed_prediction a b c ∧ fixed_prediction a b c < 2 ^ 17 := by
  rw [fixed_prediction]
  split_ifs with h1 h2
  · constructor
    · positivity
    · have hm : min a b ≤ a := Nat.min_le_left a b
      have hca : ((min a b : Nat) : Int) ≤ (a : Int) := by exact_mod_cast hm
      omega
  · constructor
    · positivity
    · have hm : max a b ≤ a + b := by omega
      have hca : ((max a b : Nat) : Int) ≤ (a : Int) + b := by exact_mod_cast hm
      omega
  · have hcm : c < max a b := by omega
    have hmin0 : (0 : Int) ≤ ((min a b : Nat) : Int) := by positivity
    have hmm : min a b + max a b = a + b := min_add_max a b
    have hcast : ((min a b : Nat) : Int) + ((max a b : Nat) : Int) = (a : Int) + b := by
      exact_mod_cast hmm
    have hcmI : (c : Int) < ((max a b : Nat) : Int) := by exact_mod_cast hcm
    exact ⟨by omega, by omega⟩

/-! ## Plane codec: encoder emits encRowsBits -/

theorem getD_lt_of_forall {l : List Nat} (h : ∀ v ∈ l, v < 2 ^ 16) (i : Nat) :
    l.getD i 0 < 2 ^ 16 := by
  rw [List.getD_eq_getElem?_getD]
  cases hg : l[i]? with
  | none => norm_num [Option.getD]
  | some v =>
      have hv := List.getElem?_mem hg
      simpa [Option.getD] using h v hv

theorem getD_set_self {l : List Nat} {i : Nat} (x : Nat) (h : i < l.length) :
    (l.set i x).getD i 0 = x := by
  rw [List.getD_eq_getElem?_getD, List.getElem?_set_self h]
  rfl

theorem getD_set_ne {l : List Nat} {i j : Nat} (x : Nat) (h : i ≠ j) :
    (l.set i x).getD j 0 = l.getD j 0 := by
  rw [List.getD_eq_getElem?_getD, List.getElem?_set_ne h, ← List.getD_eq_getElem?_getD]

theorem getD_drop (l : List Nat) (n i : Nat) : (l.drop n).getD i 0 = l.getD (n + i) 0 := by
  rw [List.getD_eq_getElem?_getD, List.getElem?_drop, ← List.getD_eq_getElem?_getD]

theorem encCols_wBits (p : Plane) (row : Nat) (hdata : ∀ v ∈ p.data, v < 2 ^ 16) :
    ∀ (fuel col a b c : Nat) (w : BitstreamWriter), WValid w →
    a < 2 ^ 16 → b < 2 ^ 16 → c < 2 ^ 16 →
    (encCols p row fuel col a b c w).wBits = w.wBits ++ encColsBits p row fuel col a b c ∧
    WValid (encCols p row fuel col a b c w) := by
  intro fuel
  induction fuel with
  | zero =>
      intro col a b c w hw ha hb hc
      constructor
      · simp [encCols, encColsBits]
      · simpa [encCols] using hw
  | succ fuel ih =>
      intro col a b c w hw ha hb hc
      simp only [encCols, encColsBits]
      set x := p.data.getD (row * p.row_stride + col * p.sample_stride) 0 with hxdef
      set d := (if 0 < row ∧ col + 1 < p.width then
        p.data.getD ((row - 1) * p.row_stride + (col + 1) * p.sample_stride) 0 else 0) with hddef
      have hx : x < 2 ^ 16 := getD_lt_of_forall hdata _
      have hd : d < 2 ^ 16 := by
        rw [hddef]
        split_ifs
        · exact getD_lt_of_forall hdata _
        · norm_num
      have hk : k a b c d ≤ 64 := Nat.le_trans (k_le_16 a b c d ha hb hc hd) (by norm_num)
      have henc := encode_value_spec (k a b c d) ((x : Int) - fixed_prediction a b c) w hw hk
      have ihs := ih (col + 1) x d b
        (encode_value (k a b c d) ((x : Int) - fixed_prediction a b c) w) henc.2 hx hd hb
      refine ⟨?_, ihs.2⟩
      rw [ihs.1, henc.1, List.append_assoc]

theorem encRows_wBits (p : Plane) (hdata : ∀ v ∈ p.data, v < 2 ^ 16) :
    ∀ (fuel row b : Nat) (w : BitstreamWriter), WValid w → b < 2 ^ 16 →
    (encRows p row fuel b w).wBits = w.wBits ++ encRowsBits p row fuel b ∧
    WValid (encRows p row fuel b w) := by
  intro fuel
  induction fuel with
  | zero =>
      intro row b w hw hb
      constructor
      · simp [encRows, encRowsBits]
      · simpa [encRows] using hw
  | succ fuel ih =>
      intro row b w hw hb
      simp only [encRows, encRowsBits]
      have hcols := encCols_wBits p row hdata p.width 0 0 b 0 w hw (by norm_num) hb (by norm_num)
      have hb2 : p.data.getD (row * p.row_stride) 0 < 2 ^ 16 := getD_lt_of_forall hdata _
      have ihs := ih (row + 1) (p.data.getD (row * p.row_stride) 0)
        (encCols p row p.width 0 0 b 0 w) hcols.2 hb2
      refine ⟨?_, ihs.2⟩
      rw [ihs.1, hcols.1, List.append_assoc]

theorem encode_plane_bytes (p : Plane) (hdata : ∀ v ∈ p.data, v < 2 ^ 16) :
    ∃ pad, bytesToBits (Codec.encode p) = encRowsBits p 0 p.height 0 ++ pad ∧
      (Codec.encode p).length = ((encRowsBits p 0 p.height 0).length + 7) / 8 ∧
      ∀ byte ∈ Codec.encode p, byte < 256 := by
  have henc := encRows_wBits p hdata p.height 0 0 BitstreamWriter.new new_wValid (by norm_num)
  have hfl := flush_spec (encRows p 0 p.height 0 BitstreamWriter.new) henc.2
  refine ⟨natToBits ((8 - (encRows p 0 p.height 0 BitstreamWriter.new).next_bits_length) % 8) 0,
    ?_, ?_, hfl.2.2⟩
  · rw [Codec.encode, hfl.1, henc.1, new_wBits, List.nil_append]
  · rw [Codec.encode, hfl.2.1, henc.1, new_wBits, List.nil_append]

/-! ## Plane codec: decoder simulation -/

theorem decCols_spec (pE : Plane) (hdE : ∀ v ∈ pE.data, v < 2 ^ 16) (B : List Nat)
    (hB : ∀ b2 ∈ B, b2 < 256) (row : Nat)
    (hbound : ∀ cc, cc < pE.width →
      row * pE.row_stride + cc * pE.sample_stride < pE.data.length) :
    ∀ (fuel col a b c : Nat) (data : List Nat) (bs : Bitstream) (t : Nat) (rest : List Bool),
    a < 2 ^ 16 → b < 2 ^ 16 → c < 2 ^ 16 →
    col + fuel = pE.width →
    data.length = pE.data.length →
    (row = 0 ∨ ∀ cc, cc < pE.width →
      data.getD ((row - 1) * pE.row_stride + cc * pE.sample_stride) 0 =
        pE.data.getD ((row - 1) * pE.row_stride + cc * pE.sample_stride) 0) →
    ReaderAt B t bs →
    (bytesToBits B).drop t = encColsBits pE row fuel col a b c ++ rest →
    ∃ data2 bs2,
      decCols pE.width pE.sample_stride pE.row_stride row fuel col a b c data bs =
        some (data2, bs2) ∧
      data2.length = pE.data.length ∧
      ReaderAt B (t + (encColsBits pE row fuel col a b c).length) bs2 ∧
      (∀ i, data.getD i 0 = pE.data.getD i 0 → data2.getD i 0 = pE.data.getD i 0) ∧
      (∀ cc, col ≤ cc → cc < pE.width →
        data2.getD (row * pE.row_stride + cc * pE.sample_stride) 0 =
          pE.data.getD (row * pE.row_stride + cc * pE.sample_stride) 0) ∧
      (∀ i, (∀ cc, col ≤ cc → cc < pE.width →
          i ≠ row * pE.row_stride + cc * pE.sample_stride) →
        data2.getD i 0 = data.getD i 0) := by
  intro fuel
  induction fuel with
  | zero =>
      intro col a b c data bs t rest ha hb hc hcf hlen hprev hra hbits
      refine ⟨data, bs, by simp [decCols], hlen, ?_, fun i hi => hi, ?_, fun i _ => rfl⟩
      · simpa [encColsBits] using hra
      · intro cc hcc1 hcc2
        omega
  | succ fuel ih =>
      intro col a b c data bs t rest ha hb hc hcf hlen hprev hra hbits
      have hcol : col < pE.width := by omega
      simp only [encColsBits] at hbits ⊢
      set x := pE.data.getD (row * pE.row_stride + col * pE.sample_stride) 0 with hxdef
      set dE := (if 0 < row ∧ col + 1 < pE.width then
        pE.data.getD ((row - 1) * pE.row_stride + (col + 1) * pE.sample_stride) 0
        else 0) with hdEdef
      have hdd : (if 0 < row ∧ col + 1 < pE.width then
          data.getD ((row - 1) * pE.row_stride + (col + 1) * pE.sample_stride) 0 else 0) = dE := by
        rw [hdEdef]
        rcases hprev with hr0 | hag
        · subst hr0
          simp
        · by_cases hcw : 0 < row ∧ col + 1 < pE.width
          · rw [if_pos hcw, if_pos hcw]
            exact hag (col + 1) hcw.2
          · rw [if_neg hcw, if_neg hcw]
      have hd16 : dE < 2 ^ 16 := by
        rw [hdEdef]
        split_ifs
        · exact getD_lt_of_forall hdE _
        · norm_num
      have hx16 : x < 2 ^ 16 := getD_lt_of_forall hdE _
      have hk30 : k a b c dE ≤ 30 :=
        Nat.le_trans (k_le_16 a b c dE ha hb hc hd16) (by norm_num)
      have hpred := fixed_prediction_range a b c ha hb hc
      have hru1 : -(2 ^ 30) ≤ (x : Int) - fixed_prediction a b c := by omega
      have hru2 : (x : Int) - fixed_prediction a b c < 2 ^ 30 := by omega
      have hzlt : zigzag_fold ((x : Int) - fixed_prediction a b c) < 2 ^ 31 :=
        zigzag_fold_lt hru1 hru2
      have hbits2 : (bytesToBits B).drop t =
          encBitsU (k a b c dE) (zigzag_fold ((x : Int) - fixed_prediction a b c)) ++
            (encColsBits pE row fuel (col + 1) x dE b ++ rest) := by
        rw [hbits, List.append_assoc]
      obtain ⟨bs1, hdec, hra1⟩ := decode_value_spec bs (k a b c dE)
        (zigzag_fold ((x : Int) - fixed_prediction a b c))
        (encColsBits pE row fuel (col + 1) x dE b ++ rest) hra hB hk30 hzlt hbits2
      have hunz : unzigzag_fold (zigzag_fold ((x : Int) - fixed_prediction a b c)) =
          (x : Int) - fixed_prediction a b c := unzig_zig hru1 hru2
      have hxval : ((fixed_prediction a b c + ((x : Int) - fixed_prediction a b c)) %
          (2 ^ 16 : Int)).toNat = x := by
        have he : fixed_prediction a b c + ((x : Int) - fixed_prediction a b c) = (x : Int) := by
          ring
        rw [he]
        omega
      have hpos : row * pE.row_stride + col * pE.sample_stride < data.length := by
        rw [hlen]
        exact hbound col hcol
      have hprev1 : row = 0 ∨ ∀ cc, cc < pE.width →
          (data.set (row * pE.row_stride + col * pE.sample_stride) x).getD
              ((row - 1) * pE.row_stride + cc * pE.sample_stride) 0 =
            pE.data.getD ((row - 1) * pE.row_stride + cc * pE.sample_stride) 0 := by
        rcases hprev with h0 | hag
        · exact Or.inl h0
        · refine Or.inr fun cc hcc => ?_
          by_cases he : row * pE.row_stride + col * pE.sample_stride =
              (row - 1) * pE.row_stride + cc * pE.sample_stride
          · rw [← he, getD_set_self _ hpos, hxdef, he]
          · rw [getD_set_ne _ he]
            exact hag cc hcc
      have hlen1 : (data.set (row * pE.row_stride + col * pE.sample_stride) x).length =
          pE.data.length := by
        rw [List.length_set, hlen]
      have hbits3 : (bytesToBits B).drop
          (t + (encBitsU (k a b c dE)
            (zigzag_fold ((x : Int) - fixed_prediction a b c))).length) =
          encColsBits pE row fuel (col + 1) x dE b ++ rest := by
        rw [← List.drop_drop, hbits2]
        have h0 := @List.drop_append _ (encBitsU (k a b c dE)
          (zigzag_fold ((x : Int) - fixed_prediction a b c)))
          (encColsBits pE row fuel (col + 1) x dE b ++ rest) 0
        rw [Nat.add_zero, List.drop_zero] at h0
        exact h0
      obtain ⟨data2, bs2, hdc, hlen2, hra2, hpres, hcov, hunt⟩ :=
        ih (col + 1) x dE b (data.set (row * pE.row_stride + col * pE.sample_stride) x) bs1
          (t + (encBitsU (k a b c dE)
            (zigzag_fold ((x : Int) - fixed_prediction a b c))).length) rest
          hx16 hd16 hb (by omega) hlen1 hprev1 hra1 hbits3
      refine ⟨data2, bs2, ?_, hlen2, ?_, ?_, ?_, ?_⟩
      · have hstep : decCols pE.width pE.sample_stride pE.row_stride row (fuel + 1) col a b c
            data bs =
            decCols pE.width pE.sample_stride pE.row_stride row fuel (col + 1)
              ((fixed_prediction a b c +
                unzigzag_fold (zigzag_fold ((x : Int) - fixed_prediction a b c))) %
                  (2 ^ 16 : Int)).toNat dE b
              (data.set (row * pE.row_stride + col * pE.sample_stride)
                ((fixed_prediction a b c +
                  unzigzag_fold (zigzag_fold ((x : Int) - fixed_prediction a b c))) %
                    (2 ^ 16 : Int)).toNat) bs1 := by
          simp only [decCols]
          rw [hdd, hdec]
        rw [hstep, hunz, hxval]
        exact hdc
      · rw [List.length_append, ← Nat.add_assoc]
        exact hra2
      · intro i hi
        apply hpres
        by_cases he : row * pE.row_stride + col * pE.sample_stride = i
        · rw [← he, getD_set_self _ hpos]
        · rw [getD_set_ne _ he]
          exact hi
      · intro cc hcc1 hcc2
        rcases Nat.eq_or_lt_of_le hcc1 with he | hlt
        · rw [← he]
          apply hpres
          rw [getD_set_self _ hpos]
        · exact hcov cc (by omega) hcc2
      · intro i hni
        have h1 : data2.getD i 0 =
            (data.set (row * pE.row_stride + col * pE.sample_stride) x).getD i 0 :=
          hunt i (fun cc hge hlt2 => hni cc (by omega) hlt2)
        have h2 : (data.set (row * pE.row_stride + col * pE.sample_stride) x).getD i 0 =
            data.getD i 0 := by
          rw [getD_set_ne _ (fun he => (hni col Nat.le.refl hcol) he.symm)]
        rw [h1, h2]

theorem decRows_spec (pE : Plane) (hdE : ∀ v ∈ pE.data, v < 2 ^ 16) (B : List Nat)
    (hB : ∀ b2 ∈ B, b2 < 256) (hwpos : 0 < pE.width)
    (hbound : ∀ rr cc, rr < pE.height → cc < pE.width →
      rr * pE.row_stride + cc * pE.sample_stride < pE.data.length) :
    ∀ (fuel row b : Nat) (data : List Nat) (bs : Bitstream) (t : Nat) (rest : List Bool),
    b < 2 ^ 16 →
    row + fuel = pE.height →
    data.length = pE.data.length →
    (row = 0 ∨ ∀ cc, cc < pE.width →
      data.getD ((row - 1) * pE.row_stride + cc * pE.sample_stride) 0 =
        pE.data.getD ((row - 1) * pE.row_stride + cc * pE.sample_stride) 0) →
    ReaderAt B t bs →
    (bytesToBits B).drop t = encRowsBits pE row fuel b ++ rest →
    ∃ data2 bs2,
      decRows pE.width pE.sample_stride pE.row_stride row fuel b data bs = some (data2, bs2) ∧
      data2.length = pE.data.length ∧
      ReaderAt B (t + (encRowsBits pE row fuel b).length) bs2 ∧
      (∀ i, data.getD i 0 = pE.data.getD i 0 → data2.getD i 0 = pE.data.getD i 0) ∧
      (∀ rr cc, row ≤ rr → rr < pE.height → cc < pE.width →
        data2.getD (rr * pE.row_stride + cc * pE.sample_stride) 0 =
          pE.data.getD (rr * pE.row_stride + cc * pE.sample_stride) 0) ∧
      (∀ i, (∀ rr cc, row ≤ rr → rr < pE.height → cc < pE.width →
          i ≠ rr * pE.row_stride + cc * pE.sample_stride) →
        data2.getD i 0 = data.getD i 0) := by
  intro fuel
  induction fuel with
  | zero =>
      intro row b data bs t rest hb hrf hlen hprev hra hbits
      refine ⟨data, bs, by simp [decRows], hlen, ?_, fun i hi => hi, ?_, fun i _ => rfl⟩
      · simpa [encRowsBits] using hra
      · intro rr cc hge hlt hcc
        omega
  | succ fuel ih =>
      intro row b data bs t rest hb hrf hlen hprev hra hbits
      simp only [encRowsBits] at hbits ⊢
      have hrow : row < pE.height := by omega
      have hboundr : ∀ cc, cc < pE.width →
          row * pE.row_stride + cc * pE.sample_stride < pE.data.length :=
        fun cc hcc => hbound row cc hrow hcc
      have hbits1 : (bytesToBits B).drop t = encColsBits pE row pE.width 0 0 b 0 ++
          (encRowsBits pE (row + 1) fuel (pE.data.getD (row * pE.row_stride) 0) ++ rest) := by
        rw [hbits, List.append_assoc]
      obtain ⟨data1, bs1, hdc, hlen1, hra1, hpres1, hcov1, hunt1⟩ :=
        decCols_spec pE hdE B hB row hboundr pE.width 0 0 b 0 data bs t
          (encRowsBits pE (row + 1) fuel (pE.data.getD (row * pE.row_stride) 0) ++ rest)
          (by norm_num) hb (by norm_num) (by omega) hlen hprev hra hbits1
      have hbrow : data1.getD (row * pE.row_stride) 0 =
          pE.data.getD (row * pE.row_stride) 0 := by
        have h0 := hcov1 0 (Nat.zero_le 0) hwpos
        simpa using h0
      have hb2 : pE.data.getD (row * pE.row_stride) 0 < 2 ^ 16 := getD_lt_of_forall hdE _
      have hprev2 : (row + 1 = 0) ∨ ∀ cc, cc < pE.width →
          data1.getD ((row + 1 - 1) * pE.row_stride + cc * pE.sample_stride) 0 =
            pE.data.getD ((row + 1 - 1) * pE.row_stride + cc * pE.sample_stride) 0 := by
        refine Or.inr fun cc hcc => ?_
        have he : row + 1 - 1 = row := by omega
        rw [he]
        exact hcov1 cc (Nat.zero_le cc) hcc
      have hbits2 : (bytesToBits B).drop (t + (encColsBits pE row pE.width 0 0 b 0).length) =
          encRowsBits pE (row + 1) fuel (pE.data.getD (row * pE.row_stride) 0) ++ rest := by
        rw [← List.drop_drop, hbits1]
        have h0 := @List.drop_append _ (encColsBits pE row pE.width 0 0 b 0)
          (encRowsBits pE (row + 1) fuel (pE.data.getD (row * pE.row_stride) 0) ++ rest) 0
        rw [Nat.add_zero, List.drop_zero] at h0
        exact h0
      obtain ⟨data2, bs2, hdr, hlen2, hra2, hpres2, hcov2, hunt2⟩ :=
        ih (row + 1) (pE.data.getD (row * pE.row_stride) 0) data1 bs1
          (t + (encColsBits pE row pE.width 0 0 b 0).length) rest hb2 (by omega) hlen1
          hprev2 hra1 hbits2
      refine ⟨data2, bs2, ?_, hlen2, ?_, ?_, ?_, ?_⟩
      · have hstep : decRows pE.width pE.sample_stride pE.row_stride row (fuel + 1) b data bs =
            decRows pE.width pE.sample_stride pE.row_stride (row + 1) fuel
              (data1.getD (row * pE.row_stride) 0) data1 bs1 := by
          simp only [decRows]
          rw [hdc]
        rw [hstep, hbrow]
        exact hdr
      · rw [List.length_append, ← Nat.add_assoc]
        exact hra2
      · intro i hi
        exact hpres2 i (hpres1 i hi)
      · intro rr cc hge hlt hcc
        rcases Nat.eq_or_lt_of_le hge with he | hlt2
        · rw [← he]
          exact hpres2 _ (hcov1 cc (Nat.zero_le cc) hcc)
        · exact hcov2 rr cc (by omega) hlt hcc
      · intro i hni
        have h1 : data2.getD i 0 = data1.getD i 0 :=
          hunt2 i (fun rr cc h1r h2r h3r => hni rr cc (by omega) h2r h3r)
        have h2 : data1.getD i 0 = data.getD i 0 :=
          hunt1 i (fun cc h1c h2c => hni row cc Nat.le.refl hrow h2c)
        rw [h1, h2]

theorem decode_plane_spec (dataE dataD : List Nat) (w h ss rs : Nat) (Rest : List Nat)
    (hdE : ∀ v ∈ dataE, v < 2 ^ 16) (hRest : ∀ b2 ∈ Rest, b2 < 256)
    (hwpos : 0 < w)
    (hbound : ∀ rr cc, rr < h → cc < w → rr * rs + cc * ss < dataE.length)
    (hlen : dataD.length = dataE.length) :
    ∃ data2,
      Codec.decode (Codec.encode ⟨dataE, w, h, ss, rs⟩ ++ Rest) ⟨dataD, w, h, ss, rs⟩ =
        some (⟨data2, w, h, ss, rs⟩, Rest) ∧
      data2.length = dataE.length ∧
      (∀ rr cc, rr < h → cc < w →
        data2.getD (rr * rs + cc * ss) 0 = dataE.getD (rr * rs + cc * ss) 0) ∧
      (∀ i, (∀ rr cc, rr < h → cc < w → i ≠ rr * rs + cc * ss) →
        data2.getD i 0 = dataD.getD i 0) := by
  obtain ⟨pad, hbytes, hblen, hbok⟩ := encode_plane_bytes ⟨dataE, w, h, ss, rs⟩ hdE
  have hBok : ∀ b2 ∈ Codec.encode ⟨dataE, w, h, ss, rs⟩ ++ Rest, b2 < 256 := by
    intro b2 hb2
    rcases List.mem_append.mp hb2 with hb2 | hb2
    · exact hbok b2 hb2
    · exact hRest b2 hb2
  have hbits0 : (bytesToBits (Codec.encode ⟨dataE, w, h, ss, rs⟩ ++ Rest)).drop 0 =
      encRowsBits ⟨dataE, w, h, ss, rs⟩ 0 (Plane.mk dataE w h ss rs).height 0 ++
        (pad ++ bytesToBits Rest) := by
    rw [List.drop_zero, bytesToBits_append, hbytes, List.append_assoc]
  obtain ⟨data2, bs2, hdr, hlen2, hra2, hpres, hcov, hunt⟩ :=
    decRows_spec ⟨dataE, w, h, ss, rs⟩ hdE (Codec.encode ⟨dataE, w, h, ss, rs⟩ ++ Rest) hBok
      hwpos hbound (Plane.mk dataE w h ss rs).height 0 0 dataD (Bitstream.new _) 0
      (pad ++ bytesToBits Rest) (by norm_num) (by omega) hlen (Or.inl rfl)
      (readerAt_new _) hbits0
  have hsrc : bs2.input = Rest := by
    obtain ⟨htle, hinp, hlen3, hstag⟩ := hra2
    rw [hinp]
    have he : (0 + (encRowsBits ⟨dataE, w, h, ss, rs⟩ 0
        (Plane.mk dataE w h ss rs).height 0).length + 7) / 8 =
        (Codec.encode ⟨dataE, w, h, ss, rs⟩).length := by
      rw [hblen]
      omega
    rw [he]
    have h0 := @List.drop_append _ (Codec.encode ⟨dataE, w, h, ss, rs⟩) Rest 0
    rw [Nat.add_zero, List.drop_zero] at h0
    exact h0
  refine ⟨data2, ?_, hlen2, ?_, ?_⟩
  · have hstep : Codec.decode (Codec.encode ⟨dataE, w, h, ss, rs⟩ ++ Rest)
        ⟨dataD, w, h, ss, rs⟩ = some ((⟨data2, w, h, ss, rs⟩ : Plane), bs2.input) := by
      dsimp only [Codec.decode]
      dsimp only at hdr
      rw [hdr]
    rw [hstep, hsrc]
  · intro rr cc h1 h2
    exact hcov rr cc (Nat.zero_le rr) h1 h2
  · intro i hni
    exact hunt i (fun rr cc h1r h2r h3r => hni rr cc h2r h3r)

/-! ## Frame framing -/

theorem pos_bound {P w h rr cc : Nat} (hr : rr < h) (hc : cc < w) :
    rr * (P * w) + cc * P + P ≤ w * h * P := by
  have h1 : rr * (P * w) ≤ (h - 1) * (P * w) := Nat.mul_le_mul_right _ (by omega)
  have h2 : cc * P ≤ (w - 1) * P := Nat.mul_le_mul_right _ (by omega)
  have e : (h - 1) * (P * w) + (w - 1) * P + P = w * h * P := by
    obtain ⟨h1', rfl⟩ : ∃ h1', h = h1' + 1 := ⟨h - 1, by omega⟩
    obtain ⟨w1', rfl⟩ : ∃ w1', w = w1' + 1 := ⟨w - 1, by omega⟩
    simp only [Nat.add_sub_cancel]
    ring
  omega

theorem offset_neq {P q p A B2 : Nat} (hq : q < P) (hp : p < P) (hne : q ≠ p) :
    q + P * A ≠ p + P * B2 := by
  intro h
  rcases Nat.lt_trichotomy A B2 with hAB | hAB | hAB
  · have h1 : P * (A + 1) ≤ P * B2 := Nat.mul_le_mul_left _ (by omega)
    rw [Nat.mul_add, Nat.mul_one] at h1
    omega
  · subst hAB
    omega
  · have h1 : P * (B2 + 1) ≤ P * A := Nat.mul_le_mul_left _ (by omega)
    rw [Nat.mul_add, Nat.mul_one] at h1
    omega

theorem getD_append_right_len {l1 l2 : List Nat} {n : Nat} (hl : l1.length ≤ n) :
    (l1 ++ l2).getD n 0 = l2.getD (n - l1.length) 0 := by
  rw [List.getD_eq_getElem?_getD, List.getElem?_append_right hl, ← List.getD_eq_getElem?_getD]

theorem getD_append_left_len {l1 l2 : List Nat} {n : Nat} (hl : n < l1.length) :
    (l1 ++ l2).getD n 0 = l1.getD n 0 := by
  rw [List.getD_eq_getElem?_getD, List.getElem?_append_left hl, ← List.getD_eq_getElem?_getD]

theorem getD_take {l : List Nat} {n i : Nat} (hi : i < n) :
    (l.take n).getD i 0 = l.getD i 0 := by
  rw [List.getD_eq_getElem?_getD, List.getElem?_take, if_pos hi, ← List.getD_eq_getElem?_getD]

theorem decodePlanes_spec (fd : List Nat) (w h P : Nat)
    (hP1 : 1 ≤ P) (hwpos : 0 < w) (hhpos : 0 < h)
    (hlenP : fd.length = w * h * P)
    (hdata : ∀ v ∈ fd, v < 2 ^ 16) :
    ∀ (fuel pIdx : Nat) (buffer : List Nat),
    pIdx + fuel = P →
    buffer.length = fd.length →
    (∀ q rr cc, q < pIdx → rr < h → cc < w →
      buffer.getD (q + (rr * (P * w) + cc * P)) 0 =
        fd.getD (q + (rr * (P * w) + cc * P)) 0) →
    ∃ buffer2 src2,
      decodePlanesGo P w h fuel pIdx buffer
        ((List.range' pIdx fuel).flatMap fun p =>
          Codec.encode ⟨fd.drop p, w, h, P, P * w⟩) = some (buffer2, src2) ∧
      buffer2.length = fd.length ∧
      (∀ q rr cc, q < pIdx + fuel → rr < h → cc < w →
        buffer2.getD (q + (rr * (P * w) + cc * P)) 0 =
          fd.getD (q + (rr * (P * w) + cc * P)) 0) := by
  intro fuel
  induction fuel with
  | zero =>
      intro pIdx buffer hpf hblen hinv
      refine ⟨buffer, [], by simp [decodePlanesGo], hblen, ?_⟩
      intro q rr cc hq hrr hcc
      exact hinv q rr cc (by omega) hrr hcc
  | succ fuel ih =>
      intro pIdx buffer hpf hblen hinv
      have hpP : pIdx < P := by omega
      have hwh : 0 < w * h := Nat.mul_pos hwpos hhpos
      have hPle : P ≤ fd.length := by
        rw [hlenP]
        calc P = 1 * P := by omega
          _ ≤ w * h * P := Nat.mul_le_mul_right P (by omega)
      have hsrc : (List.range' pIdx (fuel + 1)).flatMap
          (fun p => Codec.encode ⟨fd.drop p, w, h, P, P * w⟩) =
          Codec.encode ⟨fd.drop pIdx, w, h, P, P * w⟩ ++
          ((List.range' (pIdx + 1) fuel).flatMap fun p =>
            Codec.encode ⟨fd.drop p, w, h, P, P * w⟩) := by
        rw [List.range'_succ, List.flatMap_cons]
      have hdropMem : ∀ p0 : Nat, ∀ v ∈ fd.drop p0, v < 2 ^ 16 :=
        fun p0 v hv => hdata v (List.drop_subset _ _ hv)
      have hboundP : ∀ rr cc, rr < h → cc < w →
          rr * (P * w) + cc * P < (fd.drop pIdx).length := by
        intro rr cc hrr hcc
        rw [List.length_drop, hlenP]
        have hpb := @pos_bound P w h rr cc hrr hcc
        omega
      have hRestOk : ∀ b2 ∈ (List.range' (pIdx + 1) fuel).flatMap
          (fun p => Codec.encode ⟨fd.drop p, w, h, P, P * w⟩), b2 < 256 := by
        intro b2 hb2
        obtain ⟨p0, hp0, hb2m⟩ := List.mem_flatMap.mp hb2
        obtain ⟨pad0, hx1, hx2, hx3⟩ := encode_plane_bytes ⟨fd.drop p0, w, h, P, P * w⟩
          (hdropMem p0)
        exact hx3 b2 hb2m
      have hdlen : (buffer.drop pIdx).length = (fd.drop pIdx).length := by
        rw [List.length_drop, List.length_drop, hblen]
      obtain ⟨data2, hdec, hlen2, hcov2, hunt2⟩ :=
        decode_plane_spec (fd.drop pIdx) (buffer.drop pIdx) w h P (P * w)
          ((List.range' (pIdx + 1) fuel).flatMap fun p =>
            Codec.encode ⟨fd.drop p, w, h, P, P * w⟩)
          (hdropMem pIdx) hRestOk hwpos hboundP hdlen
      have htklen : (buffer.take pIdx).length = pIdx := by
        rw [List.length_take]
        omega
      have hblen1 : (buffer.take pIdx ++ data2).length = fd.length := by
        rw [List.length_append, htklen, hlen2, List.length_drop]
        omega
      have hinv1 : ∀ q rr cc, q < pIdx + 1 → rr < h → cc < w →
          (buffer.take pIdx ++ data2).getD (q + (rr * (P * w) + cc * P)) 0 =
            fd.getD (q + (rr * (P * w) + cc * P)) 0 := by
        intro q rr cc hq hrr hcc
        have hfact : rr * (P * w) + cc * P = P * (w * rr + cc) := by ring
        rcases Nat.lt_or_ge q pIdx with hqlt | hqge
        · rcases Nat.lt_or_ge (q + (rr * (P * w) + cc * P)) pIdx with hilt | hige
          · rw [getD_append_left_len (by rw [htklen]; exact hilt), getD_take hilt]
            exact hinv q rr cc hqlt hrr hcc
          · rw [getD_append_right_len (by rw [htklen]; exact hige), htklen]
            have huntouched : data2.getD (q + (rr * (P * w) + cc * P) - pIdx) 0 =
                (buffer.drop pIdx).getD (q + (rr * (P * w) + cc * P) - pIdx) 0 := by
              refine hunt2 _ ?_
              intro rr2 cc2 hrr2 hcc2 heq
              have hfact2 : rr2 * (P * w) + cc2 * P = P * (w * rr2 + cc2) := by ring
              rw [hfact2] at heq
              have hiq : q + (rr * (P * w) + cc * P) = pIdx + P * (w * rr2 + cc2) := by
                omega
              rw [hfact] at hiq
              exact offset_neq (by omega) hpP (by omega) hiq
            rw [huntouched, getD_drop]
            have he2 : pIdx + (q + (rr * (P * w) + cc * P) - pIdx) =
                q + (rr * (P * w) + cc * P) := by omega
            rw [he2]
            exact hinv q rr cc hqlt hrr hcc
        · have hqe : q = pIdx := by omega
          subst hqe
          rw [getD_append_right_len (by rw [htklen]; omega), htklen]
          have he3 : q + (rr * (P * w) + cc * P) - q = rr * (P * w) + cc * P := by omega
          rw [he3, hcov2 rr cc hrr hcc, getD_drop]
      obtain ⟨buffer2, src2, hgo, hblen2, hcovf⟩ :=
        ih (pIdx + 1) (buffer.take pIdx ++ data2) (by omega) hblen1 hinv1
      refine ⟨buffer2, src2, ?_, hblen2, ?_⟩
      · have hstep : decodePlanesGo P w h (fuel + 1) pIdx buffer
            ((List.range' pIdx (fuel + 1)).flatMap fun p =>
              Codec.encode ⟨fd.drop p, w, h, P, P * w⟩) =
            decodePlanesGo P w h fuel (pIdx + 1) (buffer.take pIdx ++ data2)
              ((List.range' (pIdx + 1) fuel).flatMap fun p =>
                Codec.encode ⟨fd.drop p, w, h, P, P * w⟩) := by
          simp only [decodePlanesGo]
          rw [hsrc, hdec]
        rw [hstep]
        exact hgo
      · intro q rr cc hq hrr hcc
        exact hcovf q rr cc (by omega) hrr hcc

theorem header_bytes (P : Nat) (hP1 : 1 ≤ P) (hP4 : P ≤ 4) :
    bytesToBits (BitstreamWriter.flush
        (BitstreamWriter.write_bits BitstreamWriter.new (P - 1) 2)).output =
      natToBits 2 (P - 1) ++ natToBits 6 0 ∧
    (BitstreamWriter.flush
        (BitstreamWriter.write_bits BitstreamWriter.new (P - 1) 2)).output.length = 1 ∧
    ∀ b ∈ (BitstreamWriter.flush
        (BitstreamWriter.write_bits BitstreamWriter.new (P - 1) 2)).output, b < 256 := by
  have hw := write_bits_spec BitstreamWriter.new (P - 1) 2 new_wValid
    (by omega : P - 1 < 2 ^ 2) (by omega : P - 1 < 2 ^ 64)
  have hfl := flush_spec _ hw.2
  have hwb : (BitstreamWriter.write_bits BitstreamWriter.new (P - 1) 2).wBits =
      natToBits 2 (P - 1) := by
    rw [hw.1, new_wBits, List.nil_append]
  have hlen2 : (BitstreamWriter.write_bits BitstreamWriter.new (P - 1) 2).wBits.length = 2 := by
    rw [hwb, natToBits_length]
  have hnbl : (BitstreamWriter.write_bits BitstreamWriter.new (P - 1) 2).next_bits_length = 2 := by
    have h8 := hw.2.1
    have he : (BitstreamWriter.write_bits BitstreamWriter.new (P - 1) 2).wBits.length =
        8 * (BitstreamWriter.write_bits BitstreamWriter.new (P - 1) 2).output.length +
        (BitstreamWriter.write_bits BitstreamWriter.new (P - 1) 2).next_bits_length := by
      rw [BitstreamWriter.wBits, List.length_append, bytesToBits_length, natToBits_length]
    omega
  refine ⟨?_, ?_, hfl.2.2⟩
  · rw [hfl.1, hwb, hnbl]
  · rw [hfl.2.1, hlen2]

/-- C1: for every RGB48Frame whose data is a plane-interleaved buffer of
16-bit samples of length width * height * P with P ∈ {1, 2, 3, 4} (and
non-degenerate dimensions, as required for the plane count
data.len() / (width * height) to be defined), decoding the encoded bytes with
the frame's width and height succeeds and returns a structurally equal frame:
same plane count, same dimensions, every sample identical. -/
theorem frame_encode_decode_roundtrip (f : RGB48Frame) (P : Nat)
    (hP1 : 1 ≤ P) (hP4 : P ≤ 4)
    (hlen : f.data.length = f.width * f.height * P)
    (hw : 0 < f.width) (hh : 0 < f.height)
    (hdata : ∀ v ∈ f.data, v < 2 ^ 16) :
    RGB48Frame.decode f.encode f.width f.height = some f := by
  have hwh : 0 < f.width * f.height := Nat.mul_pos hw hh
  have hn : f.data.length / (f.width * f.height) = P := by
    rw [hlen, Nat.mul_div_cancel_left P hwh]
  have hplanes : f.planes = (List.range P).map fun p =>
      (⟨f.data.drop p, f.width, f.height, P, P * f.width⟩ : Plane) := by
    rw [RGB48Frame.planes, hn]
  have hplen : f.planes.length = P := by
    rw [hplanes, List.length_map, List.length_range]
  have hPB : f.planes.flatMap Codec.encode = (List.range' 0 P).flatMap fun p =>
      Codec.encode ⟨f.data.drop p, f.width, f.height, P, P * f.width⟩ := by
    rw [hplanes, List.flatMap_map, List.range_eq_range']
  have hencode : f.encode =
      (BitstreamWriter.flush (BitstreamWriter.write_bits BitstreamWriter.new (P - 1) 2)).output
        ++ ((List.range' 0 P).flatMap fun p =>
          Codec.encode ⟨f.data.drop p, f.width, f.height, P, P * f.width⟩) := by
    rw [RGB48Frame.encode, hplen, hPB]
  obtain ⟨hHbits, hHlen, hHok⟩ := header_bytes P hP1 hP4
  have hdropMem : ∀ p0 : Nat, ∀ v ∈ f.data.drop p0, v < 2 ^ 16 :=
    fun p0 v hv => hdata v (List.drop_subset _ _ hv)
  have hPBok : ∀ b2 ∈ (List.range' 0 P).flatMap (fun p =>
      Codec.encode ⟨f.data.drop p, f.width, f.height, P, P * f.width⟩), b2 < 256 := by
    intro b2 hb2
    obtain ⟨p0, hp0, hb2m⟩ := List.mem_flatMap.mp hb2
    obtain ⟨pad0, hx1, hx2, hx3⟩ := encode_plane_bytes
      ⟨f.data.drop p0, f.width, f.height, P, P * f.width⟩ (hdropMem p0)
    exact hx3 b2 hb2m
  have hBok : ∀ b2 ∈ f.encode, b2 < 256 := by
    rw [hencode]
    intro b2 hb2
    rcases List.mem_append.mp hb2 with hb2 | hb2
    · exact hHok b2 hb2
    · exact hPBok b2 hb2
  have hBlen : 1 ≤ f.encode.length := by
    rw [hencode, List.length_append, hHlen]
    omega
  obtain ⟨rr, hread, hra⟩ := readerAt_read f.encode (Bitstream.new f.encode) 2
    (readerAt_new f.encode) hBok (by norm_num) (by omega)
  have hval2 : bitsToNat (((bytesToBits f.encode).drop 0).take 2) = P - 1 := by
    rw [List.drop_zero, hencode, bytesToBits_append, hHbits, List.append_assoc,
      List.take_append_of_le_length (by rw [natToBits_length]),
      List.take_of_length_le (by rw [natToBits_length]), bitsToNat_natToBits,
      Nat.mod_eq_of_lt (by omega)]
  rw [hval2] at hread
  have hinput : rr.input = (List.range' 0 P).flatMap fun p =>
      Codec.encode ⟨f.data.drop p, f.width, f.height, P, P * f.width⟩ := by
    obtain ⟨hle2, hinp, hlen3, hstag⟩ := hra
    rw [hinp, hencode]
    have h0 := @List.drop_append _
      ((BitstreamWriter.flush
        (BitstreamWriter.write_bits BitstreamWriter.new (P - 1) 2)).output)
      ((List.range' 0 P).flatMap fun p =>
        Codec.encode ⟨f.data.drop p, f.width, f.height, P, P * f.width⟩) 0
    rw [Nat.add_zero, List.drop_zero, hHlen] at h0
    exact h0
  have hstep1 : RGB48Frame.decode f.encode f.width f.height =
      (match decodePlanesGo (P - 1 + 1) f.width f.height (P - 1 + 1) 0
        (List.replicate (f.width * f.height * (P - 1 + 1)) 0) rr.input with
       | none => none
       | some (buffer, _) => some ⟨buffer, f.width, f.height⟩) := by
    simp only [RGB48Frame.decode]
    rw [hread]
  rw [show P - 1 + 1 = P by omega, hinput] at hstep1
  have hbuf0len : (List.replicate (f.width * f.height * P) 0).length = f.data.length := by
    rw [List.length_replicate, hlen]
  obtain ⟨buffer2, src2, hgo, hblen2, hcovf⟩ :=
    decodePlanes_spec f.data f.width f.height P hP1 hw hh hlen hdata P 0
      (List.replicate (f.width * f.height * P) 0) (by omega) hbuf0len
      (by intro q rr2 cc hq hrr hcc; omega)
  have hext : buffer2 = f.data := by
    refine List.ext_getElem (by rw [hblen2]) ?_
    intro i h1 h2
    rw [← List.getD_eq_getElem buffer2 0 h1, ← List.getD_eq_getElem f.data 0 h2]
    have hiP : i < f.width * f.height * P := by
      rw [hblen2, hlen] at h1
      exact h1
    have hq : i % P < P := Nat.mod_lt i (by omega)
    have hcc : i / P % f.width < f.width := Nat.mod_lt _ hw
    have hm : i / P < f.width * f.height := by
      rw [Nat.div_lt_iff_lt_mul (by omega : 0 < P)]
      exact hiP
    have hrr : i / P / f.width < f.height := by
      rw [Nat.div_lt_iff_lt_mul hw]
      rw [Nat.mul_comm f.width f.height] at hm
      exact hm
    have hqi : i % P + (i / P / f.width * (P * f.width) + i / P % f.width * P) = i := by
      have hf1 : i / P / f.width * (P * f.width) + i / P % f.width * P =
          P * (f.width * (i / P / f.width) + i / P % f.width) := by ring
      have hf2 : f.width * (i / P / f.width) + i / P % f.width = i / P :=
        Nat.div_add_mod (i / P) f.width
      have hf3 : P * (i / P) + i % P = i := Nat.div_add_mod i P
      rw [hf1, hf2]
      omega
    rw [← hqi]
    exact hcovf (i % P) (i / P / f.width) (i / P % f.width) (by omega) hrr hcc
  rw [hstep1, hgo, hext]

/-- Closed witness for the frame round-trip theorem on the one-pixel frame. -/
theorem frame_encode_decode_roundtrip_witness :
    RGB48Frame.decode (RGB48Frame.mk [0] 1 1).encode 1 1 = some (RGB48Frame.mk [0] 1 1) :=
  frame_encode_decode_roundtrip ⟨[0], 1, 1⟩ 1 (by norm_num) (by norm_num) (by norm_num)
    (by norm_num) (by norm_num) (by intro v hv; simp at hv; omega)

/-- C2: for every k in [0, 30] and every signed x in [-65535, 65535], writing
encode_value(k, x) to a fresh BitstreamWriter, flushing, and running
decode_value(k, _) on a Bitstream over the produced bytes returns exactly x;
and the signed-to-unsigned fold of encode_value is the classic zig-zag,
mapping 0 to 0, -1 to 1, 1 to 2, -2 to 3, 2 to 4. -/
theorem encode_decode_value_roundtrip (kk : Nat) (x : Int)
    (hk : kk ≤ 30) (hlo : -65535 ≤ x) (hhi : x ≤ 65535) :
    (∃ r2, decode_value kk (Bitstream.new
        (BitstreamWriter.flush (encode_value kk x BitstreamWriter.new)).output) =
      some (x, r2)) ∧
    zigzag_fold 0 = 0 ∧ zigzag_fold (-1) = 1 ∧ zigzag_fold 1 = 2 ∧
    zigzag_fold (-2) = 3 ∧ zigzag_fold 2 = 4 := by
  have hx1 : -(2 ^ 30) ≤ x := by omega
  have hx2 : x < 2 ^ 30 := by omega
  constructor
  · obtain ⟨henc, hval⟩ := encode_value_spec kk x BitstreamWriter.new new_wValid (by omega)
    rw [new_wBits, List.nil_append] at henc
    obtain ⟨hflb, hfll, hflok⟩ := flush_spec _ hval
    rw [henc] at hflb
    have hdrop0 : (bytesToBits
        (BitstreamWriter.flush (encode_value kk x BitstreamWriter.new)).output).drop 0 =
        encBitsU kk (zigzag_fold x) ++
          natToBits ((8 - (encode_value kk x BitstreamWriter.new).next_bits_length) % 8) 0 := by
      rw [List.drop_zero, hflb]
    obtain ⟨r2, hdec, hra2⟩ := decode_value_spec (Bitstream.new
        (BitstreamWriter.flush (encode_value kk x BitstreamWriter.new)).output)
      kk (zigzag_fold x) _ (readerAt_new _) hflok hk (zigzag_fold_lt hx1 hx2) hdrop0
    rw [unzig_zig hx1 hx2] at hdec
    exact ⟨r2, hdec⟩
  · refine ⟨?_, ?_, ?_, ?_, ?_⟩
    · rw [@zigzag_fold_nonneg 0 (by norm_num) (by norm_num)]
      norm_num
    · rw [@zigzag_fold_neg (-1) (by norm_num) (by norm_num)]
      norm_num
    · rw [@zigzag_fold_nonneg 1 (by norm_num) (by norm_num)]
      norm_num
      rfl
    · rw [@zigzag_fold_neg (-2) (by norm_num) (by norm_num)]
      norm_num
      rfl
    · rw [@zigzag_fold_nonneg 2 (by norm_num) (by norm_num)]
      norm_num
      rfl

/-- Closed witness for the entropy-coder round-trip at k = 0, x = -2. -/
theorem encode_decode_value_roundtrip_witness :
    (0 : Nat) ≤ 30 ∧ (-65535 : Int) ≤ -2 ∧ (-2 : Int) ≤ 65535 ∧
    ((∃ r2, decode_value 0 (Bitstream.new
        (BitstreamWriter.flush (encode_value 0 (-2) BitstreamWriter.new)).output) =
      some (-2, r2)) ∧
    zigzag_fold 0 = 0 ∧ zigzag_fold (-1) = 1 ∧ zigzag_fold 1 = 2 ∧
    zigzag_fold (-2) = 3 ∧ zigzag_fold 2 = 4) :=
  ⟨by norm_num, by norm_num, by norm_num,
    encode_decode_value_roundtrip 0 (-2) (by norm_num) (by norm_num) (by norm_num)⟩

theorem symbolBits_length (ps : List (Nat × Nat)) :
    (symbolBits ps).length = (ps.map Prod.snd).sum := by
  induction ps with
  | nil => rfl
  | cons q qs ih =>
      rw [symbolBits, List.length_append, natToBits_length, List.map_cons, List.sum_cons, ih]

theorem writeAll_spec (ps : List (Nat × Nat)) (w : BitstreamWriter) (hw : WValid w)
    (hps : ∀ p ∈ ps, p.2 ≤ 64 ∧ p.1 < 2 ^ p.2) :
    (writeAll w ps).wBits = w.wBits ++ symbolBits ps ∧ WValid (writeAll w ps) := by
  induction ps generalizing w with
  | nil => exact ⟨by rw [writeAll, symbolBits, List.append_nil], hw⟩
  | cons q qs ih =>
      obtain ⟨hq64, hqlt⟩ := hps q (List.mem_cons_self q qs)
      have hq64' : q.1 < 2 ^ 64 :=
        Nat.lt_of_lt_of_le hqlt (Nat.pow_le_pow_right (by norm_num) hq64)
      obtain ⟨hwb, hwv⟩ := write_bits_spec w q.1 q.2 hw hqlt hq64'
      obtain ⟨hwb2, hwv2⟩ := ih (w.write_bits q.1 q.2) hwv
        (fun p hp => hps p (List.mem_cons_of_mem q hp))
      refine ⟨?_, hwv2⟩
      rw [writeAll, hwb2, hwb, symbolBits, List.append_assoc]

theorem readAll_spec (ps : List (Nat × Nat)) (B : List Nat) (t : Nat) (r : Bitstream)
    (rest : List Bool) (hra : ReaderAt B t r) (hB : ∀ b ∈ B, b < 256)
    (hps : ∀ p ∈ ps, p.2 ≤ 64 ∧ p.1 < 2 ^ p.2)
    (hbits : (bytesToBits B).drop t = symbolBits ps ++ rest) :
    readAll r (ps.map Prod.snd) = some (ps.map Prod.fst) := by
  induction ps generalizing t r with
  | nil => rfl
  | cons q qs ih =>
      obtain ⟨hq64, hqlt⟩ := hps q (List.mem_cons_self q qs)
      have hdlen : ((bytesToBits B).drop t).length = 8 * B.length - t := by
        rw [List.length_drop, bytesToBits_length]
      have hslen : (symbolBits (q :: qs)).length = q.2 + (symbolBits qs).length := by
        rw [symbolBits, List.length_append, natToBits_length]
      have hend : t + q.2 ≤ 8 * B.length := by
        have h1 : ((bytesToBits B).drop t).length = (symbolBits (q :: qs)).length + rest.length := by
          rw [hbits, List.length_append]
        have ht := hra.1
        omega
      obtain ⟨r2, hread, hra2⟩ := readerAt_read B r q.2 hra hB hq64 hend
      have hbits' : (bytesToBits B).drop t = natToBits q.2 q.1 ++ (symbolBits qs ++ rest) := by
        rw [hbits, symbolBits, List.append_assoc]
      have hval : bitsToNat (((bytesToBits B).drop t).take q.2) = q.1 := by
        rw [hbits', List.take_append_of_le_length (by rw [natToBits_length]),
          List.take_of_length_le (by rw [natToBits_length]), bitsToNat_natToBits,
          Nat.mod_eq_of_lt hqlt]
      rw [hval] at hread
      have hbits2 : (bytesToBits B).drop (t + q.2) = symbolBits qs ++ rest := by
        rw [← List.drop_drop, hbits']
        have h0 := @List.drop_append _ (natToBits q.2 q.1) (symbolBits qs ++ rest) 0
        rw [Nat.add_zero, natToBits_length, List.drop_zero] at h0
        exact h0
      have hrec := ih (t + q.2) r2 hra2 (fun p hp => hps p (List.mem_cons_of_mem q hp)) hbits2
      have hstep : readAll r ((q :: qs).map Prod.snd) =
          match readAll r2 (qs.map Prod.snd) with
          | none => none
          | some vs => some (q.1 :: vs) := by
        simp only [List.map_cons, readAll]
        rw [hread]
      rw [hstep, hrec, List.map_cons]

/-- C3: for any sequence of write_bits calls with each n ≤ 64 and value < 2^n
on a fresh BitstreamWriter followed by flush, reading back n bits at a time
from a Bitstream over the produced bytes yields exactly the written values in
order, and the byte count is ceil(total bit count / 8). -/
theorem bitstream_write_read_roundtrip (ps : List (Nat × Nat))
    (hps : ∀ p ∈ ps, p.2 ≤ 64 ∧ p.1 < 2 ^ p.2) :
    readAll (Bitstream.new (BitstreamWriter.flush (writeAll BitstreamWriter.new ps)).output)
        (ps.map Prod.snd) = some (ps.map Prod.fst) ∧
    (BitstreamWriter.flush (writeAll BitstreamWriter.new ps)).output.length =
      ((ps.map Prod.snd).sum + 7) / 8 := by
  obtain ⟨hwb, hwv⟩ := writeAll_spec ps BitstreamWriter.new new_wValid hps
  rw [new_wBits, List.nil_append] at hwb
  obtain ⟨hflb, hfll, hflok⟩ := flush_spec _ hwv
  rw [hwb] at hflb hfll
  constructor
  · exact readAll_spec ps _ 0 _ _ (readerAt_new _) hflok hps (by rw [List.drop_zero, hflb])
  · rw [hfll, symbolBits_length]

/-- Closed witness for the bitstream round-trip on the writes
(5, 3 bits), (0, 2 bits), (4095, 12 bits). -/
theorem bitstream_write_read_roundtrip_witness :
    (∀ p ∈ [((5 : Nat), (3 : Nat)), (0, 2), (4095, 12)], p.2 ≤ 64 ∧ p.1 < 2 ^ p.2) ∧
    (readAll (Bitstream.new (BitstreamWriter.flush
          (writeAll BitstreamWriter.new [(5, 3), (0, 2), (4095, 12)])).output)
        ([((5 : Nat), (3 : Nat)), (0, 2), (4095, 12)].map Prod.snd) =
      some ([((5 : Nat), (3 : Nat)), (0, 2), (4095, 12)].map Prod.fst) ∧
    (BitstreamWriter.flush
        (writeAll BitstreamWriter.new [(5, 3), (0, 2), (4095, 12)])).output.length =
      (([((5 : Nat), (3 : Nat)), (0, 2), (4095, 12)].map Prod.snd).sum + 7) / 8) :=
  ⟨by decide, bitstream_write_read_roundtrip [(5, 3), (0, 2), (4095, 12)] (by decide)⟩

/-- C4: the frame with P = 1, width = 1, height = 1, data = [0] encodes to
exactly the two bytes [0x00, 0x80]: header byte 0x00 (P - 1 = 0 in the top
two bits, zero padding below) and payload byte 0x80 (the one-bit unary code
for residual 0 under k = 0, followed by flush padding). -/
theorem encode_single_zero_frame :
    RGB48Frame.encode ⟨[0], 1, 1⟩ = [0x00, 0x80] := by decide

/-- C5: in the plane encoder and decoder, finishing a row reassigns the
context b to the sample at column 0 of the just-finished row (index
row * row_stride), so row r + 1 starts with b = plane[r, 0]; on the 2 x 2
plane [10, 20, 30, 40] both scans enter row 1 with b = 10 (the first sample
of row 0), not 20, and encoding row 1 with b = 10 produces a different
writer state than with b = 20. -/
theorem row_boundary_b_reassignment :
    (∀ (p : Plane) (row fuel b : Nat) (w : BitstreamWriter),
      encRows p row (fuel + 1) b w =
        encRows p (row + 1) fuel (p.data.getD (row * p.row_stride) 0)
          (encCols p row p.width 0 0 b 0 w)) ∧
    (∀ (width ss rs row fuel b : Nat) (data : List Nat) (bs : Bitstream),
      decRows width ss rs row (fuel + 1) b data bs =
        match decCols width ss rs row width 0 0 b 0 data bs with
        | none => none
        | some (data1, bs1) =>
            decRows width ss rs (row + 1) fuel (data1.getD (row * rs) 0) data1 bs1) ∧
    (⟨[10, 20, 30, 40], 2, 2, 1, 2⟩ : Plane).data.getD (0 * 2) 0 = 10 ∧
    encRows ⟨[10, 20, 30, 40], 2, 2, 1, 2⟩ 0 2 0 BitstreamWriter.new =
      encRows ⟨[10, 20, 30, 40], 2, 2, 1, 2⟩ 1 1 10
        (encCols ⟨[10, 20, 30, 40], 2, 2, 1, 2⟩ 0 2 0 0 0 0 BitstreamWriter.new) ∧
    (match decCols 2 1 2 0 2 0 0 0 0 (List.replicate 4 0)
        (Bitstream.new (Codec.encode ⟨[10, 20, 30, 40], 2, 2, 1, 2⟩)) with
     | none => none
     | some (data1, _) => some (data1.getD (0 * 2) 0)) = some 10 ∧
    encRows ⟨[10, 20, 30, 40], 2, 2, 1, 2⟩ 1 1 10
        (encCols ⟨[10, 20, 30, 40], 2, 2, 1, 2⟩ 0 2 0 0 0 0 BitstreamWriter.new) ≠
      encRows ⟨[10, 20, 30, 40], 2, 2, 1, 2⟩ 1 1 20
        (encCols ⟨[10, 20, 30, 40], 2, 2, 1, 2⟩ 0 2 0 0 0 0 BitstreamWriter.new) := by
  refine ⟨fun p row fuel b w => rfl, fun width ss rs row fuel b data bs => rfl, ?_, ?_, ?_, ?_⟩
  · decide
  · rfl
  · decide
  · decide

theorem kLoop_done (f : Nat) : ∀ (A j : Nat), A ≤ 3 * 2 ^ j → kLoop f A j = j := by
  induction f with
  | zero => intro A j _; rfl
  | succ f _ =>
      intro A j h
      rw [kLoop, if_neg (by omega)]

theorem kLoop_stable (f1 : Nat) : ∀ (f2 A j : Nat), A ≤ 3 * 2 ^ (j + f1) →
    A ≤ 3 * 2 ^ (j + f2) → kLoop f1 A j = kLoop f2 A j := by
  induction f1 with
  | zero =>
      intro f2 A j h1 _
      rw [Nat.add_zero] at h1
      rw [kLoop, kLoop_done f2 A j h1]
  | succ f1 ih =>
      intro f2 A j h1 h2
      by_cases hc : 3 * 2 ^ j < A
      · cases f2 with
        | zero =>
            rw [Nat.add_zero] at h2
            omega
        | succ f2 =>
            rw [kLoop, if_pos hc, kLoop, if_pos hc]
            exact ih f2 A (j + 1)
              (by rw [show j + 1 + f1 = j + (f1 + 1) by omega]; exact h1)
              (by rw [show j + 1 + f2 = j + (f2 + 1) by omega]; exact h2)
      · rw [kLoop, if_neg hc, kLoop_done f2 A j (by omega)]

/-- C6: for 16-bit neighbors a, b, c, d with activity
A = |d - b| + |b - c| + |c - a| in exact integer arithmetic, k(a, b, c, d) is
the smallest non-negative j with A ≤ 3 * 2^j; in particular it is 0 whenever
A ≤ 3, and the while loop terminates: any fuel beyond the A iterations the
embedding allots leaves the result unchanged. -/
theorem k_smallest_activity (a b c d : Nat) (ha : a < 2 ^ 16) (hb : b < 2 ^ 16)
    (hc : c < 2 ^ 16) (hd : d < 2 ^ 16) :
    ((d : Int) - b).natAbs + ((b : Int) - c).natAbs + ((c : Int) - a).natAbs ≤
      3 * 2 ^ k a b c d ∧
    (∀ j, ((d : Int) - b).natAbs + ((b : Int) - c).natAbs + ((c : Int) - a).natAbs ≤
      3 * 2 ^ j → k a b c d ≤ j) ∧
    (((d : Int) - b).natAbs + ((b : Int) - c).natAbs + ((c : Int) - a).natAbs ≤ 3 →
      k a b c d = 0) ∧
    (∀ extra, kLoop
        (((d : Int) - b).natAbs + ((b : Int) - c).natAbs + ((c : Int) - a).natAbs + extra)
        (((d : Int) - b).natAbs + ((b : Int) - c).natAbs + ((c : Int) - a).natAbs) 0 =
      k a b c d) := by
  refine ⟨k_ge a b c d, fun j hj => k_min a b c d j hj, ?_, ?_⟩
  · intro h3
    have h0 := k_min a b c d 0 (by norm_num; omega)
    omega
  · intro extra
    rw [k_def]
    refine kLoop_stable _ _ _ 0 ?_ ?_
    · rw [Nat.zero_add]
      have h := Nat.lt_two_pow
        (((d : Int) - b).natAbs + ((b : Int) - c).natAbs + ((c : Int) - a).natAbs + extra)
      have hple : (2 : Nat) ^
            (((d : Int) - b).natAbs + ((b : Int) - c).natAbs + ((c : Int) - a).natAbs) ≤
          2 ^ (((d : Int) - b).natAbs + ((b : Int) - c).natAbs + ((c : Int) - a).natAbs
            + extra) :=
        Nat.pow_le_pow_right (by norm_num) (by omega)
      have h2 := Nat.lt_two_pow
        (((d : Int) - b).natAbs + ((b : Int) - c).natAbs + ((c : Int) - a).natAbs)
      omega
    · rw [Nat.zero_add]
      have h := Nat.lt_two_pow
        (((d : Int) - b).natAbs + ((b : Int) - c).natAbs + ((c : Int) - a).natAbs)
      omega

/-- Closed witness for the k characterisation at a = 0, b = 0, c = 0, d = 5. -/
theorem k_smallest_activity_witness :
    (0 : Nat) < 2 ^ 16 ∧ (5 : Nat) < 2 ^ 16 ∧
    (((5 : Nat) : Int) - (0 : Nat)).natAbs + (((0 : Nat) : Int) - (0 : Nat)).natAbs +
        (((0 : Nat) : Int) - (0 : Nat)).natAbs ≤ 3 * 2 ^ k 0 0 0 5 ∧
    (∀ j, (((5 : Nat) : Int) - (0 : Nat)).natAbs + (((0 : Nat) : Int) - (0 : Nat)).natAbs +
        (((0 : Nat) : Int) - (0 : Nat)).natAbs ≤ 3 * 2 ^ j → k 0 0 0 5 ≤ j) :=
  ⟨by norm_num, by norm_num,
    (k_smallest_activity 0 0 0 5 (by norm_num) (by norm_num) (by norm_num) (by norm_num)).1,
    (k_smallest_activity 0 0 0 5 (by norm_num) (by norm_num) (by norm_num)
      (by norm_num)).2.1⟩

/-- C7: for a, b, c in [0, 65535], fixed_prediction(a, b, c) lies in
[min(a,b,c), max(a,b,c) + max(a,b,c) - min(a,b,c)], and both the result and
the a + b - c intermediate fit a signed 32-bit integer. -/
theorem fixed_prediction_bounds (a b c : Nat) (ha : a ≤ 65535) (hb : b ≤ 65535)
    (hc : c ≤ 65535) :
    ((min a (min b c) : Nat) : Int) ≤ fixed_prediction a b c ∧
    fixed_prediction a b c ≤
      ((max a (max b c) : Nat) : Int) + (max a (max b c) : Nat) - (min a (min b c) : Nat) ∧
    -(2 ^ 31) ≤ (a : Int) + b - c ∧ (a : Int) + b - c < 2 ^ 31 ∧
    -(2 ^ 31) ≤ fixed_prediction a b c ∧ fixed_prediction a b c < 2 ^ 31 := by
  rw [fixed_prediction]
  split_ifs with h1 h2 <;>
    · push_cast
      omega

/-- Closed witness for the fixed_prediction bounds at a = 100, b = 200,
c = 50. -/
theorem fixed_prediction_bounds_witness :
    (100 : Nat) ≤ 65535 ∧ (200 : Nat) ≤ 65535 ∧ (50 : Nat) ≤ 65535 ∧
    (((min 100 (min 200 50) : Nat) : Int) ≤ fixed_prediction 100 200 50 ∧
    fixed_prediction 100 200 50 ≤
      ((max 100 (max 200 50) : Nat) : Int) + (max 100 (max 200 50) : Nat) -
        (min 100 (min 200 50) : Nat) ∧
    -(2 ^ 31) ≤ ((100 : Nat) : Int) + (200 : Nat) - (50 : Nat) ∧
    ((100 : Nat) : Int) + (200 : Nat) - (50 : Nat) < 2 ^ 31 ∧
    -(2 ^ 31) ≤ fixed_prediction 100 200 50 ∧ fixed_prediction 100 200 50 < 2 ^ 31) :=
  ⟨by norm_num, by norm_num, by norm_num,
    fixed_prediction_bounds 100 200 50 (by norm_num) (by norm_num) (by norm_num)⟩

/-- C8: k is monotone in the activity: if each absolute difference of one
neighbor tuple is at most the corresponding absolute difference of another,
the returned k does not decrease. -/
theorem k_monotone_in_activity (a b c d a2 b2 c2 d2 : Nat)
    (h1 : ((d : Int) - b).natAbs ≤ ((d2 : Int) - b2).natAbs)
    (h2 : ((b : Int) - c).natAbs ≤ ((b2 : Int) - c2).natAbs)
    (h3 : ((c : Int) - a).natAbs ≤ ((c2 : Int) - a2).natAbs) :
    k a b c d ≤ k a2 b2 c2 d2 :=
  k_min a b c d _ (le_trans (by omega) (k_ge a2 b2 c2 d2))

/-- Closed witness for k monotonicity: (0,0,0,1) against (0,0,0,5). -/
theorem k_monotone_in_activity_witness :
    (((1 : Nat) : Int) - (0 : Nat)).natAbs ≤ (((5 : Nat) : Int) - (0 : Nat)).natAbs ∧
    k 0 0 0 1 ≤ k 0 0 0 5 :=
  ⟨by norm_num,
    k_monotone_in_activity 0 0 0 1 0 0 0 5 (by norm_num) (by norm_num) (by norm_num)⟩

/-- C9: for 1 ≤ n ≤ 64 and a well-formed reader, next_bits(n) and
read_bits(n) fail exactly when the buffered bits plus eight times the
remaining source bytes are fewer than n; on success next_bits returns the
next n bits MSB-first without consuming them (the deliverable bit string is
unchanged), and read_bits returns the same value and consumes exactly those
n bits. -/
theorem next_bits_read_bits_semantics (r : Bitstream) (n : Nat) (hr : RValid r)
    (hn1 : 1 ≤ n) (hn64 : n ≤ 64) :
    (r.nextBits n = none ↔ r.next_bits_length + 8 * r.input.length < n) ∧
    (r.read_bits n = none ↔ r.next_bits_length + 8 * r.input.length < n) ∧
    (n ≤ r.next_bits_length + 8 * r.input.length →
      ∃ r1 r2, r.nextBits n = some (bitsToNat (r.rBits.take n), r1) ∧
        r1.rBits = r.rBits ∧
        r.read_bits n = some (bitsToNat (r.rBits.take n), r2) ∧
        r2.rBits = r.rBits.drop n) := by
  refine ⟨⟨?_, fun h => (nextBits_eof r n h).1⟩, ⟨?_, fun h => (nextBits_eof r n h).2⟩, ?_⟩
  · intro he
    by_contra hge
    push_neg at hge
    obtain ⟨r1, hsome, _⟩ := nextBits_ok r n hr hn64 hge
    rw [hsome] at he
    exact Option.noConfusion he
  · intro he
    by_contra hge
    push_neg at hge
    obtain ⟨r2, hsome, _⟩ := read_bits_ok r n hr hn64 hge
    rw [hsome] at he
    exact Option.noConfusion he
  · intro hav
    obtain ⟨r1, hs1, hrb1, _⟩ := nextBits_ok r n hr hn64 hav
    obtain ⟨r2, hs2, hrb2, _⟩ := read_bits_ok r n hr hn64 hav
    exact ⟨r1, r2, hs1, hrb1, hs2, hrb2⟩

/-- Closed witness for the peek/read semantics on the one-byte source [170]
with n = 3. -/
theorem next_bits_read_bits_semantics_witness :
    RValid (Bitstream.new [170]) ∧
    ((Bitstream.new [170]).nextBits 3 = none ↔
      (Bitstream.new [170]).next_bits_length + 8 * (Bitstream.new [170]).input.length < 3) ∧
    ((Bitstream.new [170]).read_bits 3 = none ↔
      (Bitstream.new [170]).next_bits_length + 8 * (Bitstream.new [170]).input.length < 3) :=
  ⟨⟨by norm_num [Bitstream.new], by decide⟩,
    (next_bits_read_bits_semantics (Bitstream.new [170]) 3
      ⟨by norm_num [Bitstream.new], by decide⟩ (by norm_num) (by norm_num)).1,
    (next_bits_read_bits_semantics (Bitstream.new [170]) 3
      ⟨by norm_num [Bitstream.new], by decide⟩ (by norm_num) (by norm_num)).2.1⟩

/-- C10: outside the documented precondition 1 ≤ n ≤ 64, next_bits(0) and
read_bits(0) succeed on every reader state, return 0, pull no bytes from
the source, and leave the staged bits and cursor exactly unchanged (the
behavior decode_value relies on when its parameter k is 0). -/
theorem read_zero_bits (r : Bitstream) :
    r.nextBits 0 = some (0, r) ∧ r.read_bits 0 = some (0, r) := by
  have hfill : fillBits 0 r.input r.next_bits r.next_bits_length =
      some (r.input, r.next_bits, r.next_bits_length) := by
    cases hi : r.input with
    | nil => rw [fillBits, if_neg (by omega)]
    | cons b rest => rw [fillBits, if_neg (by omega)]
  have hnext : r.nextBits 0 = some (0, r) := by
    have hstep : r.nextBits 0 =
        some ((r.next_bits >>> (r.next_bits_length - 0)) &&& ((2 ^ 64 - 1) >>> (64 - 0)),
          ⟨r.input, r.next_bits, r.next_bits_length⟩) := by
      simp only [Bitstream.nextBits]
      rw [hfill]
    rw [hstep]
    have hmask : ((2 : Nat) ^ 64 - 1) >>> (64 - 0) = 0 := by decide
    rw [hmask, Nat.and_zero]
  have hread : r.read_bits 0 = some (0, r) := by
    have hstep : r.read_bits 0 =
        some (0, { r with next_bits_length := r.next_bits_length - 0 }) := by
      simp only [Bitstream.read_bits]
      rw [hnext]
    rw [hstep, Nat.sub_zero]
  exact ⟨hnext, hread⟩

end HVC
